import Mathlib

/-!
Verification of the `zap` key-value store (Bitcask-style append-only log).

This file shallowly embeds the parts of the Rust source needed to settle the
frozen claims: the record codec (`src/storage/entry.rs`), the database
operations (`src/db.rs`), the write batch (`src/batch.rs`), the recovery scan
(`Db::process_file_handle`), the memory-mapped IO backend (`src/io/mmap.rs`),
and the file handle (`src/storage/file_handle.rs`).

Machine bytes are modelled as `Nat` (with `% 256` applied where the Rust code
relies on `u8` arithmetic), `u32` counters as `Nat` with `% 2^32` where the
Rust code wraps, and fallible Rust functions return `Except Error`.  A Rust
panic (`unwrap`, `unimplemented!`, array slicing out of bounds) is modelled as
`Option.none` wrapped around the result type.
-/

deriving instance DecidableEq for Except

namespace Zap

/-- IO error kinds used by the source (`std::io::ErrorKind`). -/
inductive IOKind where
  | unexpectedEof
  | permissionDenied
  deriving DecidableEq, Repr

/-- The error enum of `src/result.rs`: `Unsupported(String)`,
`ReportableBug(String)`, `Io(io::Error)` (the latter carried by kind). -/
inductive Error where
  | unsupported (msg : String)
  | reportableBug (msg : String)
  | io (kind : IOKind)
  deriving DecidableEq, Repr

/-- Whether an `Error` is the `Unsupported` variant. -/
def Error.isUnsupported : Error → Bool
  | .unsupported _ => true
  | _ => false

/-! ## Varints (prost length delimiters, LEB128) -/

/-- Fuelled worker for `varintEncode`; the fuel only drives the structural
recursion and never runs out when it starts at `n + 1`. -/
def varintEncodeAux : Nat → Nat → List Nat
  | 0, _ => []
  | fuel + 1, n =>
    if n < 128 then [n]
    else (n % 128 + 128) :: varintEncodeAux fuel (n / 128)

/-- LEB128 varint encoding of a natural number, least significant 7-bit group
first, as produced by prost `encode_length_delimiter` / `encode_varint`. -/
def varintEncode (n : Nat) : List Nat := varintEncodeAux (n + 1) n

theorem varintEncodeAux_congr : ∀ (n f1 f2 : Nat), n < f1 → n < f2 →
    varintEncodeAux f1 n = varintEncodeAux f2 n := by
  intro n
  induction n using Nat.strong_induction_on with
  | _ n ih =>
    intro f1 f2 h1 h2
    match f1, f2 with
    | g1 + 1, g2 + 1 =>
      show varintEncodeAux (g1 + 1) n = varintEncodeAux (g2 + 1) n
      unfold varintEncodeAux
      by_cases hn : n < 128
      · rw [if_pos hn, if_pos hn]
      · rw [if_neg hn, if_neg hn]
        have hdiv : n / 128 < n := Nat.div_lt_self (by omega) (by omega)
        rw [ih (n / 128) hdiv g1 g2 (by omega) (by omega)]

/-- The recursion equation of `varintEncode`. -/
theorem varintEncode_eq (n : Nat) :
    varintEncode n = if n < 128 then [n] else (n % 128 + 128) :: varintEncode (n / 128) := by
  show varintEncodeAux (n + 1) n = _
  unfold varintEncodeAux
  by_cases hn : n < 128
  · rw [if_pos hn, if_pos hn]
  · rw [if_neg hn, if_neg hn]
    have hdiv : n / 128 < n := Nat.div_lt_self (by omega) (by omega)
    rw [varintEncodeAux_congr (n / 128) n (n / 128 + 1) (by omega) (by omega)]
    rfl

/-- LEB128 varint decoding: returns the value and the remaining bytes, or
`none` when the bytes end inside a varint (prost returns an error there,
which every call site in the source `unwrap`s). -/
def varintDecode : List Nat → Option (Nat × List Nat)
  | [] => none
  | b :: rest =>
    if b < 128 then some (b, rest)
    else
      match varintDecode rest with
      | some (m, t) => some ((b - 128) + 128 * m, t)
      | none => none

/-- Number of bytes of the varint encoding of `n`
(prost `length_delimiter_len`). -/
def varintLen (n : Nat) : Nat := (varintEncode n).length

theorem varintEncode_ne_nil (n : Nat) : varintEncode n ≠ [] := by
  rw [varintEncode_eq]
  split <;> simp

theorem varintLen_pos (n : Nat) : 0 < varintLen n := by
  have h := varintEncode_ne_nil n
  unfold varintLen
  cases hE : varintEncode n with
  | nil => exact absurd hE h
  | cons a t => simp

/-- Varint decoding undoes encoding, for any trailing bytes. -/
theorem varintDecode_encode (n : Nat) (t : List Nat) :
    varintDecode (varintEncode n ++ t) = some (n, t) := by
  induction n using Nat.strong_induction_on with
  | _ n ih =>
    rw [varintEncode_eq]
    split
    · next h =>
      simp [varintDecode, h]
    · next h =>
      have hdiv : n / 128 < n := Nat.div_lt_self (by omega) (by omega)
      have ihd := ih (n / 128) hdiv
      simp only [List.cons_append, varintDecode]
      have hb : ¬ (n % 128 + 128 < 128) := by omega
      rw [if_neg hb]
      simp only [List.append_eq]
      rw [ihd]
      simp [Nat.mod_add_div]

/-- Bytes of a varint are below 256. -/
theorem varintEncode_lt_256 (n : Nat) : ∀ b ∈ varintEncode n, b < 256 := by
  induction n using Nat.strong_induction_on with
  | _ n ih =>
    rw [varintEncode_eq]
    split
    · next h => intro b hb; simp at hb; omega
    · next h =>
      have hdiv : n / 128 < n := Nat.div_lt_self (by omega) (by omega)
      intro b hb
      simp only [List.mem_cons] at hb
      rcases hb with hb | hb
      · have : n % 128 < 128 := Nat.mod_lt _ (by omega)
        omega
      · exact ih (n / 128) hdiv b hb

/-- A number below `128 ^ k` encodes in at most `k` varint bytes. -/
theorem varintLen_le (n k : Nat) (hk : 1 ≤ k) (h : n < 128 ^ k) :
    varintLen n ≤ k := by
  induction k generalizing n with
  | zero => omega
  | succ k ihk =>
    unfold varintLen
    rw [varintEncode_eq]
    split
    · simp
    · next hn =>
      have hk1 : 1 ≤ k := by
        by_contra hk0
        have : k = 0 := by omega
        subst this
        simp [pow_succ] at h
        omega
      have hdivlt : n / 128 < 128 ^ k := by
        rw [Nat.div_lt_iff_lt_mul (by omega)]
        calc n < 128 ^ (k + 1) := h
        _ = 128 ^ k * 128 := by ring
      have := ihk (n / 128) hk1 hdivlt
      unfold varintLen at this
      simp only [List.length_cons]
      omega

/-! ## Big-endian u32 (bytes `put_u32` / `get_u32`) -/

/-- Big-endian 4-byte encoding of a `u32` (`BytesMut::put_u32`). -/
def u32be (n : Nat) : List Nat :=
  [n / 2 ^ 24 % 256, n / 2 ^ 16 % 256, n / 2 ^ 8 % 256, n % 256]

/-- Big-endian read of the first 4 bytes (`Buf::get_u32`); `none` when fewer
than 4 bytes remain (a panic in the Rust source). -/
def getU32 : List Nat → Option Nat
  | b0 :: b1 :: b2 :: b3 :: _ => some (b0 * 2 ^ 24 + b1 * 2 ^ 16 + b2 * 2 ^ 8 + b3)
  | _ => none

theorem getU32_u32be (n : Nat) (h : n < 2 ^ 32) (t : List Nat) :
    getU32 (u32be n ++ t) = some n := by
  simp only [u32be, List.cons_append, getU32, Option.some.injEq]
  omega

/-! ## CRC32 (crc32fast, IEEE polynomial, bit-reflected) -/

/-- One bit step of the reflected CRC32: shift right, conditionally XOR with
the reversed polynomial `0xEDB88320`. -/
def crcBit (c : Nat) : Nat :=
  if c % 2 = 1 then Nat.xor (c / 2) 0xEDB88320 else c / 2

/-- One byte step: XOR the byte into the low bits, then eight bit steps. -/
def crcByte (c b : Nat) : Nat :=
  crcBit (crcBit (crcBit (crcBit (crcBit (crcBit (crcBit (crcBit (Nat.xor c (b % 256)))))))))

/-- CRC32 of a byte list (`crc32fast::Hasher::new`, `update`, `finalize`). -/
def crc32 (bs : List Nat) : Nat :=
  Nat.xor (bs.foldl crcByte 0xFFFFFFFF) 0xFFFFFFFF

theorem crcBit_lt (c : Nat) (h : c < 2 ^ 32) : crcBit c < 2 ^ 32 := by
  unfold crcBit
  split
  · exact Nat.xor_lt_two_pow (by omega) (by norm_num)
  · omega

theorem crcByte_lt (c b : Nat) (h : c < 2 ^ 32) : crcByte c b < 2 ^ 32 := by
  unfold crcByte
  have h0 : Nat.xor c (b % 256) < 2 ^ 32 :=
    Nat.xor_lt_two_pow h (by have hb : b % 256 < 256 := Nat.mod_lt b (by omega); omega)
  exact crcBit_lt _ (crcBit_lt _ (crcBit_lt _ (crcBit_lt _ (crcBit_lt _ (crcBit_lt _
    (crcBit_lt _ (crcBit_lt _ h0)))))))

theorem foldl_crcByte_lt (bs : List Nat) :
    ∀ c, c < 2 ^ 32 → bs.foldl crcByte c < 2 ^ 32 := by
  induction bs with
  | nil => intro c hc; simpa using hc
  | cons a t ih =>
    intro c hc
    simp only [List.foldl_cons]
    exact ih _ (crcByte_lt _ _ hc)

theorem crc32_lt (bs : List Nat) : crc32 bs < 2 ^ 32 := by
  unfold crc32
  exact Nat.xor_lt_two_pow (foldl_crcByte_lt bs _ (by norm_num)) (by norm_num)

/-! ## Record codec (`src/storage/entry.rs`) -/

/-- Record state.  The snapshot's `entry.rs` declares only `Active` and
`Inactive`, but `db.rs` and `batch.rs` both use a `State::Committed` variant.
Modelled from the spec: state byte 2 is the `Committed` transaction marker
(record layout, spec section 3).  The two-variant enum exactly as committed in
`entry.rs` is embedded separately below as `EntryState` for the claims that
cite that file. -/
inductive State where
  | active
  | inactive
  | committed
  deriving DecidableEq, Repr

/-- The `state as u8` discriminant written by `encode_and_get_crc`. -/
def State.toByte : State → Nat
  | .active => 0
  | .inactive => 1
  | .committed => 2

/-- `State::from(u8)`.  Modelled from the spec for byte 2 (see `State`); any
other byte panics (`none`). -/
def State.fromByte : Nat → Option State
  | 0 => some .active
  | 1 => some .inactive
  | 2 => some .committed
  | _ => none

theorem State.fromByte_toByte (st : State) : State.fromByte st.toByte = some st := by
  cases st <;> rfl

/-- A log record: transaction-scoped key, value, state (`DataEntry`). -/
structure DataEntry where
  key : List Nat
  value : List Nat
  state : State
  deriving DecidableEq, Repr

/-- `DataEntry::is_active`. -/
def DataEntry.isActive (e : DataEntry) : Bool :=
  match e.state with
  | .active => true
  | _ => false

/-- `DataEntry::encode_and_get_crc`: state byte, varint key length, varint
value length, key bytes, value bytes, then the big-endian CRC32 of the
preceding bytes.  When both lengths are zero it returns
`Error::Io(UnexpectedEof)` (entry.rs lines 77-80). -/
def DataEntry.encodeAndGetCrc (e : DataEntry) : Except Error (List Nat × Nat) :=
  if e.key.length = 0 ∧ e.value.length = 0 then
    .error (.io .unexpectedEof)
  else
    let pre := e.state.toByte ::
      (varintEncode e.key.length ++ varintEncode e.value.length ++ e.key ++ e.value)
    let c := crc32 pre
    .ok (pre ++ u32be c, c)

/-- `DataEntry::encode`. -/
def DataEntry.encode (e : DataEntry) : Except Error (List Nat) :=
  e.encodeAndGetCrc.map Prod.fst

/-- Zero-padded positional read of `n` bytes at offset `off`: the Rust code
reads into a `BytesMut::zeroed`/`with_capacity` buffer via `read_at`, which
fills only the bytes available in the file. -/
def readAt (f : List Nat) (off n : Nat) : List Nat :=
  let s := (f.drop off).take n
  s ++ List.replicate (n - s.length) 0

/-- `DataEntry::decode_header` on a header buffer: read the state byte and
the two length varints; both lengths zero means end of file
(`Io(UnexpectedEof)`).  `none` models the panics (`get_u8` on an empty
buffer, varint `unwrap`).  Returns `(ksz, vsz, actual_header_size, state)`. -/
def decodeHeader (buf : List Nat) : Option (Except Error (Nat × Nat × Nat × Nat)) :=
  match buf with
  | [] => none
  | b0 :: rest =>
    match varintDecode rest with
    | none => none
    | some (ksz, r1) =>
      match varintDecode r1 with
      | none => none
      | some (vsz, _) =>
        if ksz = 0 ∧ vsz = 0 then some (.error (.io .unexpectedEof))
        else some (.ok (ksz, vsz, 1 + varintLen ksz + varintLen vsz, b0))

/-- `DataEntry::decode` on a body buffer: slice the key and the value,
rebuild the entry with `State::from`, then compare the stored CRC (the four
bytes after key and value) with the CRC of the re-encoded entry.  `none`
models the slicing, `State::from` and `get_u32` panics. -/
def decodeBody (body : List Nat) (ksz vsz stByte : Nat) :
    Option (Except Error DataEntry) :=
  if body.length < ksz + 4 then none
  else
    match State.fromByte stByte with
    | none => none
    | some st =>
      let e : DataEntry := ⟨body.take ksz, (body.take (body.length - 4)).drop ksz, st⟩
      match getU32 (body.drop (ksz + vsz)) with
      | none => none
      | some stored =>
        match e.encodeAndGetCrc with
        | .error err => some (.error err)
        | .ok (_, c) =>
          if stored ≠ c then some (.error (.unsupported "CRC check failed"))
          else some (.ok e)

/-- One record extraction from the byte suffix that starts at the record:
read an 11-byte header buffer (`1 + 2 * length_delimiter_len(u32::MAX)`),
decode the header, read `ksz + vsz + 4` body bytes after the header, decode
the body, and return the entry together with its on-disk size.
Modelled from the spec (section 4.3): the `extract_data_entry` committed in
`file_handle.rs` is from an older revision (it decodes an empty header buffer
and returns no size) and does not match its call sites in `db.rs`. -/
def extractSuffix (s : List Nat) : Option (Except Error (DataEntry × Nat)) :=
  match decodeHeader (readAt s 0 11) with
  | none => none
  | some (.error e) => some (.error e)
  | some (.ok (ksz, vsz, hsz, stByte)) =>
    match decodeBody (readAt s hsz (ksz + vsz + 4)) ksz vsz stByte with
    | none => none
    | some (.error e) => some (.error e)
    | some (.ok de) => some (.ok (de, hsz + ksz + vsz + 4))

/-- `FileHandle::extract_data_entry`, as invoked by `db.rs` at a byte
offset. -/
def extractDataEntry (f : List Nat) (off : Nat) : Option (Except Error (DataEntry × Nat)) :=
  extractSuffix (f.drop off)

/-! ## Codec round trip -/

/-- The CRC-covered prefix of an encoded record. -/
def encPre (e : DataEntry) : List Nat :=
  e.state.toByte ::
    (varintEncode e.key.length ++ varintEncode e.value.length ++ e.key ++ e.value)

/-- The full encoded record (prefix plus big-endian CRC). -/
def encBytes (e : DataEntry) : List Nat :=
  encPre e ++ u32be (crc32 (encPre e))

theorem encodeAndGetCrc_eq (e : DataEntry)
    (h : ¬(e.key.length = 0 ∧ e.value.length = 0)) :
    e.encodeAndGetCrc = .ok (encBytes e, crc32 (encPre e)) := by
  unfold DataEntry.encodeAndGetCrc
  rw [if_neg h]
  rfl

theorem encode_eq (e : DataEntry)
    (h : ¬(e.key.length = 0 ∧ e.value.length = 0)) :
    e.encode = .ok (encBytes e) := by
  unfold DataEntry.encode
  rw [encodeAndGetCrc_eq e h]
  rfl

theorem encBytes_length (e : DataEntry) :
    (encBytes e).length =
      1 + varintLen e.key.length + varintLen e.value.length
        + e.key.length + e.value.length + 4 := by
  simp [encBytes, encPre, u32be, varintLen]
  omega

theorem encBytes_as_header (e : DataEntry) :
    encBytes e = e.state.toByte ::
      (varintEncode e.key.length ++ (varintEncode e.value.length ++
        (e.key ++ (e.value ++ u32be (crc32 (encPre e)))))) := by
  simp [encBytes, encPre]

theorem decodeHeader_enc (e : DataEntry) (rest : List Nat)
    (hne : ¬(e.key.length = 0 ∧ e.value.length = 0))
    (hk : e.key.length < 2 ^ 32) (hv : e.value.length < 2 ^ 32) :
    decodeHeader (readAt (encBytes e ++ rest) 0 11) =
      some (.ok (e.key.length, e.value.length,
        1 + varintLen e.key.length + varintLen e.value.length, e.state.toByte)) := by
  have hkl : varintLen e.key.length ≤ 5 :=
    varintLen_le _ 5 (by omega) (lt_of_lt_of_le hk (by norm_num))
  have hvl : varintLen e.value.length ≤ 5 :=
    varintLen_le _ 5 (by omega) (lt_of_lt_of_le hv (by norm_num))
  have hKlen : (varintEncode e.key.length).length = varintLen e.key.length := rfl
  have hVlen : (varintEncode e.value.length).length = varintLen e.value.length := rfl
  -- the read header buffer is the state byte followed by a tail that starts
  -- with the two complete length varints
  obtain ⟨W, hW⟩ : ∃ W, readAt (encBytes e ++ rest) 0 11 =
      e.state.toByte :: (varintEncode e.key.length ++
        (varintEncode e.value.length ++ W)) := by
    have hf : encBytes e ++ rest = e.state.toByte :: (varintEncode e.key.length ++
        (varintEncode e.value.length ++ (e.key ++ (e.value ++
          (u32be (crc32 (encPre e)) ++ rest))))) := by
      rw [encBytes_as_header]
      simp only [List.cons_append, List.append_assoc]
    have htake : (encBytes e ++ rest).take 11 =
        e.state.toByte :: (varintEncode e.key.length ++
          (varintEncode e.value.length ++
            ((e.key ++ (e.value ++ (u32be (crc32 (encPre e)) ++ rest))).take
              (10 - varintLen e.key.length - varintLen e.value.length)))) := by
      rw [hf]
      rw [show (11 : Nat) = 10 + 1 from rfl, List.take_succ_cons]
      rw [List.take_append_eq_append_take,
        List.take_of_length_le (by omega : (varintEncode e.key.length).length ≤ 10)]
      rw [List.take_append_eq_append_take,
        List.take_of_length_le (by rw [hVlen]; omega)]
      rw [hKlen, hVlen]
    refine ⟨(e.key ++ (e.value ++ (u32be (crc32 (encPre e)) ++ rest))).take
        (10 - varintLen e.key.length - varintLen e.value.length) ++
      List.replicate (11 - ((encBytes e ++ rest).take 11).length) 0, ?_⟩
    rw [readAt]
    simp only [List.drop_zero]
    rw [htake]
    simp only [List.cons_append, List.append_assoc]
  rw [hW]
  simp only [decodeHeader, varintDecode_encode]
  rw [if_neg hne]

theorem getU32_u32be' (n : Nat) (h : n < 2 ^ 32) : getU32 (u32be n) = some n := by
  have := getU32_u32be n h []
  simpa using this

theorem readAt_body (e : DataEntry) (rest : List Nat) :
    readAt (encBytes e ++ rest)
        (1 + varintLen e.key.length + varintLen e.value.length)
        (e.key.length + e.value.length + 4) =
      e.key ++ (e.value ++ u32be (crc32 (encPre e))) := by
  have hf : encBytes e ++ rest =
      (e.state.toByte :: (varintEncode e.key.length ++ varintEncode e.value.length)) ++
        ((e.key ++ (e.value ++ u32be (crc32 (encPre e)))) ++ rest) := by
    rw [encBytes_as_header]
    simp only [List.cons_append, List.append_assoc]
  have hHlen : (e.state.toByte ::
      (varintEncode e.key.length ++ varintEncode e.value.length)).length =
      1 + varintLen e.key.length + varintLen e.value.length := by
    simp only [List.length_cons, List.length_append]
    have h1 : (varintEncode e.key.length).length = varintLen e.key.length := rfl
    have h2 : (varintEncode e.value.length).length = varintLen e.value.length := rfl
    omega
  have hBlen : (e.key ++ (e.value ++ u32be (crc32 (encPre e)))).length =
      e.key.length + e.value.length + 4 := by
    simp only [List.length_append, u32be, List.length_cons, List.length_nil]
    omega
  rw [readAt, hf]
  rw [List.drop_left' hHlen]
  rw [List.take_left' hBlen]
  simp [hBlen]

theorem decodeBody_enc (e : DataEntry)
    (hne : ¬(e.key.length = 0 ∧ e.value.length = 0)) :
    decodeBody (e.key ++ (e.value ++ u32be (crc32 (encPre e))))
        e.key.length e.value.length e.state.toByte =
      some (.ok e) := by
  have hBlen : (e.key ++ (e.value ++ u32be (crc32 (encPre e)))).length =
      e.key.length + e.value.length + 4 := by
    simp only [List.length_append, u32be, List.length_cons, List.length_nil]
    omega
  have hregroup : e.key ++ (e.value ++ u32be (crc32 (encPre e))) =
      (e.key ++ e.value) ++ u32be (crc32 (encPre e)) := by
    simp only [List.append_assoc]
  have htakeK : (e.key ++ (e.value ++ u32be (crc32 (encPre e)))).take e.key.length =
      e.key := List.take_left' rfl
  have htakeKV : (e.key ++ (e.value ++ u32be (crc32 (encPre e)))).take
      (e.key.length + e.value.length) = e.key ++ e.value := by
    rw [hregroup]
    exact List.take_left' (by simp)
  have hdropKV : (e.key ++ (e.value ++ u32be (crc32 (encPre e)))).drop
      (e.key.length + e.value.length) = u32be (crc32 (encPre e)) := by
    rw [hregroup]
    exact List.drop_left' (by simp)
  rw [decodeBody]
  rw [if_neg (by omega)]
  rw [State.fromByte_toByte]
  simp only [hBlen]
  rw [show e.key.length + e.value.length + 4 - 4 = e.key.length + e.value.length
    from by omega]
  rw [htakeK, htakeKV, hdropKV]
  rw [List.drop_left]
  rw [getU32_u32be' _ (crc32_lt _)]
  have heta : (⟨e.key, e.value, e.state⟩ : DataEntry) = e := rfl
  rw [heta]
  rw [encodeAndGetCrc_eq e hne]
  simp

/-- Codec round trip: an encoded record followed by arbitrary bytes extracts
back to the same entry and to its encoded size. -/
theorem extractSuffix_enc (e : DataEntry) (rest : List Nat)
    (hne : ¬(e.key.length = 0 ∧ e.value.length = 0))
    (hk : e.key.length < 2 ^ 32) (hv : e.value.length < 2 ^ 32) :
    extractSuffix (encBytes e ++ rest) = some (.ok (e, (encBytes e).length)) := by
  rw [extractSuffix]
  rw [decodeHeader_enc e rest hne hk hv]
  simp only
  rw [readAt_body, decodeBody_enc e hne]
  simp only [Option.some.injEq, Except.ok.injEq, Prod.mk.injEq, true_and]
  rw [encBytes_length]

/-! ## Transaction-scoped keys (`src/batch.rs`) -/

/-- `encode_transaction_key`: varint sequence number followed by the user
key. -/
def encode_transaction_key (key : List Nat) (seqNo : Nat) : List Nat :=
  varintEncode seqNo ++ key

/-- `decode_transaction_key`: split the varint sequence number off the stored
key; the `seq_no as u32` cast wraps modulo `2 ^ 32`.  `none` models the varint
`unwrap` panic. -/
def decode_transaction_key (key : List Nat) : Option (List Nat × Nat) :=
  match varintDecode key with
  | some (q, rest) => some (rest, q % 2 ^ 32)
  | none => none

theorem decode_encode_transaction_key (key : List Nat) (q : Nat) (h : q < 2 ^ 32) :
    decode_transaction_key (encode_transaction_key key q) = some (key, q) := by
  unfold decode_transaction_key encode_transaction_key
  rw [varintDecode_encode]
  simp only [Option.some.injEq, Prod.mk.injEq, true_and]
  exact Nat.mod_eq_of_lt h

theorem encode_transaction_key_ne_nil (key : List Nat) (q : Nat) :
    encode_transaction_key key q ≠ [] := by
  unfold encode_transaction_key
  have := varintEncode_ne_nil q
  cases h : varintEncode q with
  | nil => exact absurd h this
  | cons a t => simp

/-! ## In-memory index (`src/index/hashmap.rs` semantics) -/

/-- Locator `(file_id, offset, size)` (`KeyDirEntry`). -/
structure KeyDirEntry where
  fileId : Nat
  offset : Nat
  size : Nat
  deriving DecidableEq, Repr

/-- The index: user key to locator.  Association-list model of the concurrent
map behind the `Indexer` trait (`insert` replaces, `remove` deletes). -/
def Index := List (List Nat × KeyDirEntry)
  deriving DecidableEq, Repr

/-- `Indexer::put` (insert-or-replace). -/
def idxPut (idx : Index) (k : List Nat) (e : KeyDirEntry) : Index :=
  (k, e) :: List.filter (fun p => !decide (p.1 = k)) idx

/-- `Indexer::get`. -/
def idxGet (idx : Index) (k : List Nat) : Option KeyDirEntry :=
  (List.find? (fun p => decide (p.1 = k)) idx).map Prod.snd

/-- `Indexer::delete` (remove). -/
def idxDelete (idx : Index) (k : List Nat) : Index :=
  List.filter (fun p => !decide (p.1 = k)) idx

theorem idxGet_put_same (idx : Index) (k : List Nat) (e : KeyDirEntry) :
    idxGet (idxPut idx k e) k = some e := by
  simp [idxGet, idxPut, List.find?]

theorem find?_filter_ne {α β : Type} [DecidableEq α] (t : List (α × β)) (k k' : α)
    (h : k' ≠ k) :
    List.find? (fun p => decide (p.1 = k))
        (List.filter (fun p => !decide (p.1 = k')) t) =
      List.find? (fun p => decide (p.1 = k)) t := by
  induction t with
  | nil => rfl
  | cons p t ih =>
    by_cases hp : p.1 = k'
    · have hpk : ¬ (p.1 = k) := by rw [hp]; exact h
      rw [List.filter_cons_of_neg (by simp [hp]),
        List.find?_cons_of_neg _ (by simp [hpk]), ih]
    · by_cases hpk : p.1 = k
      · rw [List.filter_cons_of_pos (by simp [hp]),
          List.find?_cons_of_pos _ (by simp [hpk]),
          List.find?_cons_of_pos _ (by simp [hpk])]
      · rw [List.filter_cons_of_pos (by simp [hp]),
          List.find?_cons_of_neg _ (by simp [hpk]),
          List.find?_cons_of_neg _ (by simp [hpk]), ih]

theorem idxGet_put_other (idx : Index) (k k' : List Nat) (e : KeyDirEntry)
    (h : k' ≠ k) : idxGet (idxPut idx k' e) k = idxGet idx k := by
  unfold idxGet idxPut
  rw [List.find?_cons_of_neg _ (by simp [h])]
  rw [find?_filter_ne idx k k' h]

theorem idxGet_delete_other (idx : Index) (k k' : List Nat)
    (h : k' ≠ k) : idxGet (idxDelete idx k') k = idxGet idx k := by
  unfold idxGet idxDelete
  rw [find?_filter_ne idx k k' h]

/-! ## Database state (`src/db.rs`) -/

/-- Engine options (`src/options.rs`), restricted to the fields the claims
exercise. -/
structure Opts where
  maxKeySize : Nat
  maxValueSize : Nat
  readOnly : Bool
  syncWrites : Bool
  dataFileSize : Nat
  deriving DecidableEq, Repr

/-- The database state: options, the active segment (id, byte contents,
stored write offset), the inactive segment map, the in-memory index and the
`u32` sequence-number counter.  Byte lists stand in for the on-disk segment
files; the directory lock and the IO handles carry no state the claims
need. -/
structure Db where
  opts : Opts
  activeId : Nat
  active : List Nat
  activeOff : Nat
  inactive : List (Nat × List Nat)
  index : Index
  seqNo : Nat
  deriving DecidableEq, Repr

/-- `DashMap::insert` on the inactive-file map (insert-or-replace). -/
def insertFile (m : List (Nat × List Nat)) (fid : Nat) (f : List Nat) :
    List (Nat × List Nat) :=
  (fid, f) :: List.filter (fun p => !decide (p.1 = fid)) m

/-- The segment a `file_id` resolves to: the active file when the ids match,
otherwise the inactive map (the branch structure of `Db::read_data_entry`). -/
def fileOf (s : Db) (fid : Nat) : Option (List Nat) :=
  if fid = s.activeId then some s.active
  else (List.find? (fun p => decide (p.1 = fid)) s.inactive).map Prod.snd

/-- `Db::append_entry`: encode the record; when it does not fit
(`offset + record_len > data_file_size`) sync and rotate (move the active
file into the inactive map under its id, open an empty file under id + 1);
then append and return the locator
`(file_id, offset_after_write - written, encoded_length)`. -/
def append_entry (s : Db) (e : DataEntry) : Except Error (Db × KeyDirEntry) :=
  match e.encode with
  | .error err => .error err
  | .ok enc =>
    let s1 := if s.activeOff + enc.length > s.opts.dataFileSize then
        { s with
          activeId := s.activeId + 1
          active := []
          activeOff := 0
          inactive := insertFile s.inactive s.activeId s.active }
      else s
    let s2 := { s1 with active := s1.active ++ enc, activeOff := s1.activeOff + enc.length }
    .ok (s2, ⟨s2.activeId, s2.activeOff - enc.length, enc.length⟩)

/-- `Db::put` (db.rs lines 242-276).  Returns the unchanged state alongside
the error on every rejection path. -/
def dbPut (s : Db) (key value : List Nat) : Db × Except Error Unit :=
  if s.opts.readOnly then (s, .error (.io .permissionDenied))
  else if key.length = 0 ∨ key.length > s.opts.maxKeySize then
    (s, .error (.unsupported "limited max_key_size"))
  else if value.length > s.opts.maxValueSize then
    (s, .error (.unsupported "limited max_value_size"))
  else
    match append_entry s ⟨encode_transaction_key key 0, value, .active⟩ with
    | .error err => (s, .error err)
    | .ok (s2, kde) => ({ s2 with index := idxPut s2.index key kde }, .ok ())

/-- `Db::delete` (db.rs lines 204-240). -/
def dbDelete (s : Db) (key : List Nat) : Db × Except Error Unit :=
  if s.opts.readOnly then (s, .error (.io .permissionDenied))
  else if key.length = 0 then (s, .error (.unsupported "Key is required"))
  else if key.length > s.opts.maxKeySize then
    (s, .error (.unsupported "limited max_key_size"))
  else if (idxGet s.index key).isNone then (s, .ok ())
  else
    match append_entry s ⟨encode_transaction_key key 0, [], .inactive⟩ with
    | .error err => (s, .error err)
    | .ok (s2, _) => ({ s2 with index := idxDelete s2.index key }, .ok ())

/-- `Db::read_data_entry`: fetch the record behind a locator from the active
or an inactive segment; a non-Active record is reported as removed.  `none`
models the decode panics. -/
def read_data_entry (s : Db) (kde : KeyDirEntry) : Option (Except Error DataEntry) :=
  match fileOf s kde.fileId with
  | none => some (.error (.unsupported "Db read error: File not found"))
  | some f =>
    match extractDataEntry f kde.offset with
    | none => none
    | some (.error err) => some (.error err)
    | some (.ok (de, _)) =>
      if de.isActive = false then
        some (.error (.unsupported "Db read error: Entry removed"))
      else some (.ok de)

/-- `Db::get` (db.rs lines 335-354). -/
def dbGet (s : Db) (key : List Nat) : Option (Except Error (List Nat)) :=
  if key.length = 0 ∨ key.length > s.opts.maxKeySize then
    some (.error (.unsupported "limited max_key_size"))
  else
    match idxGet s.index key with
    | none => some (.error (.unsupported "Db read error: Key not found"))
    | some kde =>
      match read_data_entry s kde with
      | none => none
      | some (.error err) => some (.error err)
      | some (.ok de) => some (.ok de.value)

/-! ## Round trip through the log (claim C2) -/

/-- The record `Db::put` appends for key `k` and value `v`: transaction key
with sequence number 0 (`NON_COMMITTED`), state `Active`. -/
def putEntry (k v : List Nat) : DataEntry :=
  ⟨encode_transaction_key k 0, v, .active⟩

theorem putEntry_key_ne (k v : List Nat) : (putEntry k v).key.length ≠ 0 := by
  have := encode_transaction_key_ne_nil k 0
  simp only [putEntry]
  intro hlen
  exact this (List.length_eq_zero.mp hlen)

theorem putEntry_key_length (k v : List Nat) :
    (putEntry k v).key.length = 1 + k.length := by
  have h0 : varintEncode 0 = [0] := rfl
  simp [putEntry, encode_transaction_key, h0]
  omega

/-- Operations that may intervene between the `put` and the `get` of claim
C2: further puts and deletes (on other keys). -/
inductive KOp where
  | put (key value : List Nat)
  | del (key : List Nat)
  deriving DecidableEq, Repr

/-- The key an intervening operation touches. -/
def KOp.key : KOp → List Nat
  | .put k _ => k
  | .del k => k

/-- Run one intervening operation, keeping the state the operation leaves
behind whether it succeeds or is rejected. -/
def applyKOp (s : Db) (op : KOp) : Db :=
  match op with
  | .put k v => (dbPut s k v).1
  | .del k => (dbDelete s k).1

def applyKOps (s : Db) (ops : List KOp) : Db := ops.foldl applyKOp s

/-- Well-formedness of a database state for claim C2: the stored write offset
is the active file's length, inactive ids precede the active id, and the
configured size limits fit in the codec's header bounds. -/
def C2Wf (s : Db) : Prop :=
  s.activeOff = s.active.length ∧
  (∀ p ∈ s.inactive, p.1 < s.activeId) ∧
  s.opts.maxKeySize + 1 < 2 ^ 32 ∧
  s.opts.maxValueSize < 2 ^ 32

/-- Everything `dbGet` needs to return `v` for `k`, stated so that it is
preserved by operations on other keys. -/
structure GoodState (k v : List Nat) (s : Db) : Prop where
  kne : k.length ≠ 0
  kle : k.length ≤ s.opts.maxKeySize
  kbound : k.length + 1 < 2 ^ 32
  vbound : v.length < 2 ^ 32
  offEq : s.activeOff = s.active.length
  idsLt : ∀ p ∈ s.inactive, p.1 < s.activeId
  located : ∃ (loc : KeyDirEntry) (pre post : List Nat),
    idxGet s.index k = some loc ∧
    loc.fileId ≤ s.activeId ∧
    fileOf s loc.fileId = some (pre ++ (encBytes (putEntry k v) ++ post)) ∧
    loc.offset = pre.length

theorem GoodState_dbGet (k v : List Nat) (s : Db) (h : GoodState k v s) :
    dbGet s k = some (.ok v) := by
  obtain ⟨loc, pre, post, hidx, hfid, hfile, hoffs⟩ := h.located
  have hextract : extractDataEntry (pre ++ (encBytes (putEntry k v) ++ post)) loc.offset =
      some (.ok (putEntry k v, (encBytes (putEntry k v)).length)) := by
    unfold extractDataEntry
    rw [hoffs, List.drop_left' rfl]
    exact extractSuffix_enc (putEntry k v) post
      (by intro hc; exact putEntry_key_ne k v hc.1)
      (by rw [putEntry_key_length]; have := h.kbound; omega)
      (by have := h.vbound; simpa [putEntry] using this)
  have hread : read_data_entry s loc = some (.ok (putEntry k v)) := by
    unfold read_data_entry
    simp only [hfile, hextract]
    simp [putEntry, DataEntry.isActive]
  unfold dbGet
  rw [if_neg (by push_neg; exact ⟨h.kne, h.kle⟩)]
  simp only [hidx, hread]
  simp [putEntry]

/-- State bookkeeping of a successful `append_entry`: options and index are
untouched, the offset keeps tracking the active length, ids stay ordered, and
every previously resolvable file still resolves to an extension of its old
contents. -/
theorem append_entry_state (s : Db) (e' : DataEntry) (s2 : Db) (kde' : KeyDirEntry)
    (hoff : s.activeOff = s.active.length)
    (hids : ∀ p ∈ s.inactive, p.1 < s.activeId)
    (happ : append_entry s e' = .ok (s2, kde')) :
    s2.opts = s.opts ∧ s2.index = s.index ∧
    s2.activeOff = s2.active.length ∧
    s.activeId ≤ s2.activeId ∧
    (∀ p ∈ s2.inactive, p.1 < s2.activeId) ∧
    (∀ fid F, fileOf s fid = some F → fid ≤ s.activeId →
      ∃ tail, fileOf s2 fid = some (F ++ tail)) := by
  unfold append_entry at happ
  cases henc : e'.encode with
  | error err => rw [henc] at happ; exact absurd happ (by simp)
  | ok enc =>
    rw [henc] at happ
    simp only at happ
    by_cases hrot : s.activeOff + enc.length > s.opts.dataFileSize
    · rw [if_pos hrot] at happ
      simp only at happ
      have hpair := Except.ok.inj happ
      have h1 := congrArg Prod.fst hpair
      simp only at h1
      subst h1
      refine ⟨rfl, rfl, by simp, by simp, ?_, ?_⟩
      · intro p hp
        simp only [insertFile, List.mem_cons, List.mem_filter] at hp
        rcases hp with hp | ⟨hp, _⟩
        · subst hp; simp
        · have := hids p hp
          simp only
          omega
      · intro fid F hF hle
        by_cases hfa : fid = s.activeId
        · subst hfa
          unfold fileOf at hF
          rw [if_pos rfl] at hF
          have hFa : F = s.active := (Option.some.inj hF).symm
          subst hFa
          refine ⟨[], ?_⟩
          unfold fileOf
          simp only
          rw [if_neg (by omega)]
          rw [insertFile]
          rw [List.find?_cons_of_pos _ (by simp)]
          simp
        · have hlt : fid < s.activeId := by omega
          refine ⟨[], ?_⟩
          unfold fileOf at hF ⊢
          rw [if_neg hfa] at hF
          simp only
          rw [if_neg (by omega)]
          rw [insertFile]
          rw [List.find?_cons_of_neg _ (by simp; omega)]
          rw [find?_filter_ne _ _ _ (by omega)]
          rw [hF]
          simp
    · rw [if_neg hrot] at happ
      have hpair := Except.ok.inj happ
      have h1 := congrArg Prod.fst hpair
      simp only at h1
      subst h1
      refine ⟨rfl, rfl, by simp [hoff], by simp, ?_, ?_⟩
      · intro p hp
        exact hids p hp
      · intro fid F hF hle
        by_cases hfa : fid = s.activeId
        · subst hfa
          unfold fileOf at hF
          rw [if_pos rfl] at hF
          have hFa : F = s.active := (Option.some.inj hF).symm
          subst hFa
          refine ⟨enc, ?_⟩
          unfold fileOf
          simp
        · refine ⟨[], ?_⟩
          unfold fileOf at hF ⊢
          rw [if_neg hfa] at hF
          simp only
          rw [if_neg hfa]
          rw [hF]
          simp

/-- Where a successful `append_entry` places the fresh record: at the end of
the resulting active file, with the locator's offset naming the byte where
its encoding starts. -/
theorem append_entry_fresh (s : Db) (e' : DataEntry) (s2 : Db) (kde : KeyDirEntry)
    (hoff : s.activeOff = s.active.length)
    (hne : ¬(e'.key.length = 0 ∧ e'.value.length = 0))
    (happ : append_entry s e' = .ok (s2, kde)) :
    kde.fileId = s2.activeId ∧
    ∃ pre, s2.active = pre ++ (encBytes e' ++ []) ∧ kde.offset = pre.length := by
  unfold append_entry at happ
  rw [encode_eq e' hne] at happ
  simp only at happ
  by_cases hrot : s.activeOff + (encBytes e').length > s.opts.dataFileSize
  · rw [if_pos hrot] at happ
    simp only at happ
    have hpair := Except.ok.inj happ
    have h1 := congrArg Prod.fst hpair
    have h2 := congrArg Prod.snd hpair
    simp only at h1 h2
    subst h1
    subst h2
    refine ⟨rfl, [], by simp, by simp⟩
  · rw [if_neg hrot] at happ
    have hpair := Except.ok.inj happ
    have h1 := congrArg Prod.fst hpair
    have h2 := congrArg Prod.snd hpair
    simp only at h1 h2
    subst h1
    subst h2
    refine ⟨rfl, s.active, by simp, by simp [hoff]⟩

/-- `GoodState` for `(k, v)` survives a `put` on any other key. -/
theorem GoodState_dbPut_other (k v k' v' : List Nat) (s : Db)
    (h : GoodState k v s) (hkk : k' ≠ k) : GoodState k v (dbPut s k' v').1 := by
  unfold dbPut
  by_cases hro : s.opts.readOnly
  · rw [if_pos hro]; exact h
  rw [if_neg hro]
  by_cases hk : k'.length = 0 ∨ k'.length > s.opts.maxKeySize
  · rw [if_pos hk]; exact h
  rw [if_neg hk]
  by_cases hv : v'.length > s.opts.maxValueSize
  · rw [if_pos hv]; exact h
  rw [if_neg hv]
  cases happ : append_entry s ⟨encode_transaction_key k' 0, v', .active⟩ with
  | error err => exact h
  | ok pair =>
    obtain ⟨s2, kde2⟩ := pair
    obtain ⟨hopts, hindex, hoff2, hid2, hids2, hfiles⟩ :=
      append_entry_state s _ s2 kde2 h.offEq h.idsLt happ
    refine ⟨h.kne, by rw [show ({s2 with index := idxPut s2.index k' kde2} : Db).opts
        = s.opts from by rw [← hopts]]; exact h.kle,
      h.kbound, h.vbound, hoff2, hids2, ?_⟩
    obtain ⟨loc, pre, post, hidx, hfid, hfile, hoffs⟩ := h.located
    obtain ⟨tail, hf2⟩ := hfiles loc.fileId _ hfile (le_trans hfid (le_refl _))
    refine ⟨loc, pre, post ++ tail, ?_, le_trans hfid hid2, ?_, hoffs⟩
    · show idxGet (idxPut s2.index k' kde2) k = some loc
      rw [idxGet_put_other _ _ _ _ hkk, hindex]
      exact hidx
    · show fileOf s2 loc.fileId = _
      rw [hf2]
      simp [List.append_assoc]

/-- `GoodState` for `(k, v)` survives a `delete` on any other key. -/
theorem GoodState_dbDelete_other (k v k' : List Nat) (s : Db)
    (h : GoodState k v s) (hkk : k' ≠ k) : GoodState k v (dbDelete s k').1 := by
  unfold dbDelete
  by_cases hro : s.opts.readOnly
  · rw [if_pos hro]; exact h
  rw [if_neg hro]
  by_cases hk : k'.length = 0
  · rw [if_pos hk]; exact h
  rw [if_neg hk]
  by_cases hk2 : k'.length > s.opts.maxKeySize
  · rw [if_pos hk2]; exact h
  rw [if_neg hk2]
  by_cases hmiss : (idxGet s.index k').isNone
  · rw [if_pos hmiss]; exact h
  rw [if_neg hmiss]
  cases happ : append_entry s ⟨encode_transaction_key k' 0, [], .inactive⟩ with
  | error err => exact h
  | ok pair =>
    obtain ⟨s2, kde2⟩ := pair
    obtain ⟨hopts, hindex, hoff2, hid2, hids2, hfiles⟩ :=
      append_entry_state s _ s2 kde2 h.offEq h.idsLt happ
    refine ⟨h.kne, by rw [show ({s2 with index := idxDelete s2.index k'} : Db).opts
        = s.opts from by rw [← hopts]]; exact h.kle,
      h.kbound, h.vbound, hoff2, hids2, ?_⟩
    obtain ⟨loc, pre, post, hidx, hfid, hfile, hoffs⟩ := h.located
    obtain ⟨tail, hf2⟩ := hfiles loc.fileId _ hfile (le_trans hfid (le_refl _))
    refine ⟨loc, pre, post ++ tail, ?_, le_trans hfid hid2, ?_, hoffs⟩
    · show idxGet (idxDelete s2.index k') k = some loc
      rw [idxGet_delete_other _ _ _ hkk, hindex]
      exact hidx
    · show fileOf s2 loc.fileId = _
      rw [hf2]
      simp [List.append_assoc]

/-- A successful `put` leaves the database in `GoodState` for its pair. -/
theorem dbPut_ok_GoodState (s : Db) (k v : List Nat) (s' : Db)
    (hwf : C2Wf s) (h : dbPut s k v = (s', .ok ())) : GoodState k v s' := by
  obtain ⟨hoff, hids, hkb, hvb⟩ := hwf
  unfold dbPut at h
  by_cases hro : s.opts.readOnly
  · rw [if_pos hro] at h
    exact absurd (congrArg Prod.snd h) (by simp)
  rw [if_neg hro] at h
  by_cases hk : k.length = 0 ∨ k.length > s.opts.maxKeySize
  · rw [if_pos hk] at h
    exact absurd (congrArg Prod.snd h) (by simp)
  rw [if_neg hk] at h
  push_neg at hk
  obtain ⟨hk0, hkle⟩ := hk
  by_cases hv : v.length > s.opts.maxValueSize
  · rw [if_pos hv] at h
    exact absurd (congrArg Prod.snd h) (by simp)
  rw [if_neg hv] at h
  cases happ : append_entry s ⟨encode_transaction_key k 0, v, .active⟩ with
  | error err =>
    rw [happ] at h
    exact absurd (congrArg Prod.snd h) (by simp)
  | ok pair =>
    obtain ⟨s2, kde⟩ := pair
    rw [happ] at h
    have hs' : ({s2 with index := idxPut s2.index k kde} : Db) = s' :=
      congrArg Prod.fst h
    subst hs'
    obtain ⟨hopts, hindex, hoff2, hid2, hids2, hfiles⟩ :=
      append_entry_state s _ s2 kde hoff hids happ
    have hne' : ¬((putEntry k v).key.length = 0 ∧ (putEntry k v).value.length = 0) := by
      intro hc
      exact putEntry_key_ne k v hc.1
    obtain ⟨hfid, pre, hact, hoffk⟩ :=
      append_entry_fresh s (putEntry k v) s2 kde hoff hne' happ
    refine ⟨by omega, by rw [show ({s2 with index := idxPut s2.index k kde} : Db).opts
        = s.opts from by rw [← hopts]]; exact hkle, by omega, by omega, hoff2, hids2, ?_⟩
    refine ⟨kde, pre, [], idxGet_put_same _ _ _, by rw [hfid], ?_, hoffk⟩
    show fileOf s2 kde.fileId = _
    unfold fileOf
    rw [if_pos hfid, hact]

theorem GoodState_applyKOps (k v : List Nat) (ops : List KOp) :
    ∀ s, GoodState k v s → (∀ op ∈ ops, KOp.key op ≠ k) →
      GoodState k v (applyKOps s ops) := by
  induction ops with
  | nil => intro s h _; exact h
  | cons op t ih =>
    intro s h havoid
    show GoodState k v (List.foldl applyKOp (applyKOp s op) t)
    apply ih
    · cases op with
      | put k' v' =>
        exact GoodState_dbPut_other k v k' v' s h (havoid _ (List.mem_cons_self _ _))
      | del k' =>
        exact GoodState_dbDelete_other k v k' s h (havoid _ (List.mem_cons_self _ _))
    · intro op' hop'
      exact havoid op' (List.mem_cons_of_mem _ hop')

/-- C2: on a well-formed writable database, a `put(k, v)` that returns `Ok`
followed by any sequence of puts and deletes on other keys leaves `get(k)`
returning exactly `v`. -/
theorem c2_put_get_round_trip (s : Db) (k v : List Nat) (s' : Db) (ops : List KOp)
    (hwf : C2Wf s) (hput : dbPut s k v = (s', .ok ()))
    (havoid : ∀ op ∈ ops, KOp.key op ≠ k) :
    dbGet (applyKOps s' ops) k = some (.ok v) :=
  GoodState_dbGet k v _
    (GoodState_applyKOps k v ops s' (dbPut_ok_GoodState s k v s' hwf hput) havoid)

/-- A fresh, empty, writable database state used by the concrete witnesses. -/
def db0 : Db := ⟨⟨16, 16, false, true, 1024⟩, 0, [], 0, [], [], 1⟩

theorem c2_put_get_round_trip_witness :
    dbGet (applyKOps (dbPut db0 [1] [2]).1 [KOp.put [3] [4], KOp.del [3]]) [1] =
      some (.ok [2]) :=
  c2_put_get_round_trip db0 [1] [2] (dbPut db0 [1] [2]).1 [KOp.put [3] [4], KOp.del [3]]
    ⟨rfl, by simp [db0], by norm_num [db0], by norm_num [db0]⟩
    (by rw [← show (dbPut db0 [1] [2]).2 = Except.ok () from by decide]) (by decide)

/-! ## Write batch (`src/batch.rs`) -/

/-- The reserved commit-marker user key `__COMMITTED__` (ASCII). -/
def committedKey : List Nat := [95, 95, 67, 79, 77, 77, 73, 84, 84, 69, 68, 95, 95]

/-- `WriteBatchOptions`. -/
structure WriteBatchOptions where
  maxBatchNum : Nat
  syncWrites : Bool

/-- The `try_fold` in `WriteBatch::commit`: append every pending entry under
the batch sequence number, accumulating `user_key -> locator`; on an error
the database keeps the appends already performed. -/
def commitLoop : Db → Nat → List DataEntry → List (List Nat × KeyDirEntry) →
    Db × Except Error (List (List Nat × KeyDirEntry))
  | s, _, [], acc => (s, .ok acc)
  | s, seq, e :: t, acc =>
    match append_entry s ⟨encode_transaction_key e.key seq, e.value, e.state⟩ with
    | .error err => (s, .error err)
    | .ok (s2, kde) => commitLoop s2 seq t (acc ++ [(e.key, kde)])

/-- One step of the final index-application loop of `WriteBatch::commit`:
only entries whose state is Active are inserted; `none` models the
`keydir_entries.get(..).unwrap` panic. -/
def commitIndexStep (kdes : List (List Nat × KeyDirEntry)) (ix : Option Index)
    (e : DataEntry) : Option Index :=
  match ix with
  | none => none
  | some ix =>
    if e.isActive then
      match List.find? (fun p => decide (p.1 = e.key)) kdes with
      | none => none
      | some p => some (idxPut ix e.key p.2)
    else some ix

/-- `WriteBatch::commit` (batch.rs lines 71-122).  `pending` lists the
pending-writes map's entries (each carrying its user key); iteration order is
the list order.  Returns `none` on the panics, otherwise the resulting
database and the commit result; error returns keep the state mutated so
far. -/
def wbCommit (s : Db) (pending : List DataEntry) (opts : WriteBatchOptions) :
    Option (Db × Except Error Unit) :=
  if pending.length = 0 then some (s, .ok ())
  else if pending.length > opts.maxBatchNum then
    some (s, .error (.unsupported "Exceeds max batch number"))
  else
    let seq := s.seqNo
    let s0 := { s with seqNo := (s.seqNo + 1) % 2 ^ 32 }
    match commitLoop s0 seq pending [] with
    | (s1, .error err) => some (s1, .error err)
    | (s1, .ok kdes) =>
      match append_entry s1 ⟨encode_transaction_key committedKey seq, [], .committed⟩ with
      | .error err => some (s1, .error err)
      | .ok (s2, _) =>
        match pending.foldl (commitIndexStep kdes) (some s2.index) with
        | none => none
        | some ix2 => some ({ s2 with index := ix2 }, .ok ())

theorem append_entry_index (s : Db) (e : DataEntry) (s2 : Db) (kde : KeyDirEntry)
    (happ : append_entry s e = .ok (s2, kde)) : s2.index = s.index := by
  unfold append_entry at happ
  cases henc : e.encode with
  | error err => rw [henc] at happ; exact absurd happ (by simp)
  | ok enc =>
    rw [henc] at happ
    simp only at happ
    by_cases hrot : s.activeOff + enc.length > s.opts.dataFileSize
    · rw [if_pos hrot] at happ
      simp only at happ
      have h1 := congrArg Prod.fst (Except.ok.inj happ)
      simp only at h1
      rw [← h1]
    · rw [if_neg hrot] at happ
      have h1 := congrArg Prod.fst (Except.ok.inj happ)
      simp only at h1
      rw [← h1]

theorem commitLoop_index (seq : Nat) (pending : List DataEntry) :
    ∀ s acc s1 kdes, commitLoop s seq pending acc = (s1, .ok kdes) →
      s1.index = s.index := by
  induction pending with
  | nil =>
    intro s acc s1 kdes h
    rw [commitLoop] at h
    have h1 := congrArg Prod.fst h
    simp only at h1
    rw [← h1]
  | cons e t ih =>
    intro s acc s1 kdes h
    rw [commitLoop] at h
    cases happ : append_entry s ⟨encode_transaction_key e.key seq, e.value, e.state⟩ with
    | error err =>
      rw [happ] at h
      exact absurd (congrArg Prod.snd h) (by simp)
    | ok pair =>
      obtain ⟨s2, kde⟩ := pair
      rw [happ] at h
      have := ih s2 _ s1 kdes h
      rw [this, append_entry_index s _ s2 kde happ]

theorem commitIndexStep_none (kdes : List (List Nat × KeyDirEntry))
    (pending : List DataEntry) :
    pending.foldl (commitIndexStep kdes) none = none := by
  induction pending with
  | nil => rfl
  | cons e t ih => simpa [commitIndexStep] using ih

/-- The index fold changes nothing at a key no Active pending entry owns. -/
theorem commitIndexFold_frame (kdes : List (List Nat × KeyDirEntry))
    (pending : List DataEntry) :
    ∀ ix ix' q, pending.foldl (commitIndexStep kdes) (some ix) = some ix' →
      (∀ e ∈ pending, e.isActive = true → e.key ≠ q) →
      idxGet ix' q = idxGet ix q := by
  induction pending with
  | nil =>
    intro ix ix' q h _
    rw [← Option.some.inj h]
  | cons e t ih =>
    intro ix ix' q h hno
    rw [List.foldl_cons] at h
    by_cases hact : e.isActive
    · cases hfind : List.find? (fun p => decide (p.1 = e.key)) kdes with
      | none =>
        rw [show commitIndexStep kdes (some ix) e = none from by
          simp [commitIndexStep, hact, hfind]] at h
        rw [commitIndexStep_none] at h
        exact absurd h (by simp)
      | some p =>
        rw [show commitIndexStep kdes (some ix) e = some (idxPut ix e.key p.2) from by
          simp [commitIndexStep, hact, hfind]] at h
        have hkey : e.key ≠ q := hno e (List.mem_cons_self _ _) hact
        rw [ih _ _ _ h (fun d hd => hno d (List.mem_cons_of_mem _ hd))]
        exact idxGet_put_other _ _ _ _ hkey
    · rw [show commitIndexStep kdes (some ix) e = some ix from by
        simp [commitIndexStep, hact]] at h
      exact ih _ _ _ h (fun d hd => hno d (List.mem_cons_of_mem _ hd))

theorem isActive_iff (e : DataEntry) : e.isActive = true ↔ e.state = State.active := by
  unfold DataEntry.isActive
  cases e.state <;> simp

/-- C3: a committed batch only inserts its Active pending entries; the index
mapping of every pending tombstone's user key is exactly what it was before
the commit. -/
theorem c3_commit_tombstone_frame (s : Db) (pending : List DataEntry)
    (opts : WriteBatchOptions) (s' : Db)
    (hnodup : (pending.map DataEntry.key).Nodup)
    (h : wbCommit s pending opts = some (s', .ok ())) :
    (∀ e ∈ pending, e.state ≠ State.active →
      idxGet s'.index e.key = idxGet s.index e.key) ∧
    (∀ q, idxGet s'.index q ≠ idxGet s.index q →
      ∃ e ∈ pending, e.key = q ∧ e.state = State.active) := by
  unfold wbCommit at h
  by_cases h0 : pending.length = 0
  · rw [if_pos h0] at h
    have hs : s = s' := congrArg Prod.fst (Option.some.inj h)
    constructor
    · intro e he _
      rw [← hs]
    · intro q hq
      rw [← hs] at hq
      exact absurd rfl hq
  rw [if_neg h0] at h
  by_cases hmax : pending.length > opts.maxBatchNum
  · rw [if_pos hmax] at h
    exact absurd (congrArg Prod.snd (Option.some.inj h)) (by simp)
  rw [if_neg hmax] at h
  simp only at h
  cases hloop : commitLoop { s with seqNo := (s.seqNo + 1) % 2 ^ 32 } s.seqNo pending []
    with
  | mk s1 res =>
    simp only [hloop] at h
    cases res with
    | error err => exact absurd (congrArg Prod.snd (Option.some.inj h)) (by simp)
    | ok kdes =>
      cases happ : append_entry s1
          ⟨encode_transaction_key committedKey s.seqNo, [], .committed⟩ with
      | error err =>
        simp only [happ] at h
        exact absurd (congrArg Prod.snd (Option.some.inj h)) (by simp)
      | ok pair =>
        obtain ⟨s2, kdeM⟩ := pair
        simp only [happ] at h
        cases hfold : pending.foldl (commitIndexStep kdes) (some s2.index) with
        | none =>
          simp only [hfold] at h
          exact absurd h (by simp)
        | some ix2 =>
          simp only [hfold] at h
          have hs' : ({ s2 with index := ix2 } : Db) = s' :=
            congrArg Prod.fst (Option.some.inj h)
          have hidx2 : s'.index = ix2 := by rw [← hs']
          have hbase : s2.index = s.index := by
            rw [append_entry_index s1 _ s2 kdeM happ,
              commitLoop_index s.seqNo pending _ _ s1 kdes hloop]
          constructor
          · intro e he hst
            have hno : ∀ d ∈ pending, d.isActive = true → d.key ≠ e.key := by
              intro d hd hdact hkeq
              have : d = e := List.inj_on_of_nodup_map hnodup hd he hkeq
              subst this
              exact hst ((isActive_iff d).mp hdact)
            rw [hidx2, commitIndexFold_frame kdes pending s2.index ix2 e.key hfold hno,
              hbase]
          · intro q hq
            by_contra hne'
            push_neg at hne'
            have hno : ∀ d ∈ pending, d.isActive = true → d.key ≠ q := by
              intro d hd hdact hkeq
              exact (hne' d hd hkeq) ((isActive_iff d).mp hdact)
            exact hq (by rw [hidx2,
              commitIndexFold_frame kdes pending s2.index ix2 q hfold hno, hbase])

/-- The two-entry pending batch (one tombstone, one Active put) used by the
C3 witness. -/
def c3pending : List DataEntry :=
  [⟨[7], [], State.inactive⟩, ⟨[8], [9], State.active⟩]

set_option maxRecDepth 8000 in
theorem c3_commit_tombstone_frame_witness :
    idxGet ((wbCommit db0 c3pending ⟨4, true⟩).getD (db0, Except.ok ())).1.index [7] =
      idxGet db0.index [7] :=
  (c3_commit_tombstone_frame db0 c3pending ⟨4, true⟩
      ((wbCommit db0 c3pending ⟨4, true⟩).getD (db0, Except.ok ())).1
      (by decide) (by decide)).1
    ⟨[7], [], State.inactive⟩ (by decide) (by decide)

/-- C9: `commit()` on an empty batch is an `Ok` no-op, and a batch larger
than `max_batch_num` is rejected with `Unsupported` before any append, the
state unchanged. -/
theorem c9_commit_guards (s : Db) (pending : List DataEntry)
    (opts : WriteBatchOptions) :
    (pending = [] → wbCommit s pending opts = some (s, .ok ())) ∧
    (pending.length > opts.maxBatchNum →
      wbCommit s pending opts =
        some (s, .error (.unsupported "Exceeds max batch number"))) := by
  constructor
  · intro h
    subst h
    rfl
  · intro h
    unfold wbCommit
    rw [if_neg (by omega), if_pos h]

theorem c9_commit_guards_witness :
    wbCommit db0 [] ⟨3, true⟩ = some (db0, .ok ()) ∧
      wbCommit db0 [⟨[1], [2], State.active⟩, ⟨[2], [2], State.active⟩,
        ⟨[3], [2], State.active⟩, ⟨[4], [2], State.active⟩] ⟨3, true⟩ =
        some (db0, .error (.unsupported "Exceeds max batch number")) :=
  ⟨(c9_commit_guards db0 [] ⟨3, true⟩).1 rfl,
    (c9_commit_guards db0 _ ⟨3, true⟩).2 (by norm_num)⟩

/-! ## Read-only rejection (claim C4) -/

/-- Whether a call result is an `Unsupported` error. -/
def isUnsupportedExc {α : Type} : Except Error α → Bool
  | .error (.unsupported _) => true
  | _ => false

/-- A read-only variant of `db0`. -/
def roDb : Db := ⟨⟨16, 16, true, true, 1024⟩, 0, [], 0, [], [], 1⟩

/-- C4 counterexample: on a read-only database, `put` is rejected with
`Error::Io(PermissionDenied)` (db.rs line 245), not with `Unsupported` as the
claim states; likewise `delete` (db.rs line 207). -/
theorem c4_counterexample :
    (dbPut roDb [1] [2]).2 = .error (.io .permissionDenied) ∧
    isUnsupportedExc (dbPut roDb [1] [2]).2 = false ∧
    (dbDelete roDb [1]).2 = .error (.io .permissionDenied) ∧
    isUnsupportedExc (dbDelete roDb [1]).2 = false := by
  refine ⟨rfl, rfl, rfl, rfl⟩

/-- C4 amended: on a read-only database, `put` and `delete` return an
`Io(PermissionDenied)` error for every key and value, and leave the whole
state — log and index included — unchanged. -/
theorem c4_read_only_rejects (s : Db) (key value : List Nat)
    (h : s.opts.readOnly = true) :
    dbPut s key value = (s, .error (.io .permissionDenied)) ∧
    dbDelete s key = (s, .error (.io .permissionDenied)) := by
  unfold dbPut dbDelete
  rw [if_pos h, if_pos h]
  exact ⟨rfl, rfl⟩

theorem c4_read_only_rejects_witness :
    dbPut roDb [1] [2] = (roDb, .error (.io .permissionDenied)) ∧
    dbDelete roDb [1] = (roDb, .error (.io .permissionDenied)) :=
  c4_read_only_rejects roDb [1] [2] rfl

/-! ## Zero-length record guard (claim C5) -/

/-- C5 counterexample: encoding a record whose key and value are both empty
returns `Error::Io(UnexpectedEof)` (entry.rs line 79), not `Unsupported` as
the claim states. -/
theorem c5_counterexample :
    DataEntry.encode ⟨[], [], State.active⟩ = .error (.io .unexpectedEof) ∧
    isUnsupportedExc (DataEntry.encode ⟨[], [], State.active⟩) = false := by
  refine ⟨rfl, rfl⟩

/-- C5 amended: for every record whose key length and value length are both
zero, `encode` returns an `Io(UnexpectedEof)` error — it never produces
bytes. -/
theorem c5_encode_zero_rejected (e : DataEntry)
    (hk : e.key.length = 0) (hv : e.value.length = 0) :
    e.encode = .error (.io .unexpectedEof) := by
  unfold DataEntry.encode DataEntry.encodeAndGetCrc
  rw [if_pos ⟨hk, hv⟩]
  rfl

theorem c5_encode_zero_rejected_witness :
    DataEntry.encode ⟨[], [], State.inactive⟩ = .error (.io .unexpectedEof) :=
  c5_encode_zero_rejected ⟨[], [], State.inactive⟩ rfl rfl

/-! ## Memory-mapped IO backend (`src/io/mmap.rs`, claim C6) -/

/-- `MmapIO`: the mapped file bytes. -/
def MmapIO := List Nat

/-- `MmapIO::read` (mmap.rs lines 32-42): bounds-checked positional read;
when `offset + buf.len()` exceeds the mapped length it returns
`Io(UnexpectedEof)`, otherwise the requested slice and its length. -/
def mmapRead (m : MmapIO) (bufLen off : Nat) : Except Error (List Nat × Nat) :=
  if off + bufLen > List.length m then .error (.io .unexpectedEof)
  else .ok ((List.take bufLen (List.drop off m)), bufLen)

/-- `MmapIO::write` (mmap.rs lines 44-46) is `unimplemented!()`: it panics on
every input buffer (`none`); it never returns a value or an error. -/
def mmapWrite (m : MmapIO) (buf : List Nat) : Option (Except Error Nat) := none

/-- `MmapIO::sync` (mmap.rs lines 48-50) is `unimplemented!()`. -/
def mmapSync (m : MmapIO) : Option (Except Error Unit) := none

/-- C6 counterexample: the memory-mapped backend's `write` and `sync` do not
return an `Unsupported` error as the claim states — they are
`unimplemented!()` and panic, producing no return value at all. -/
theorem c6_counterexample :
    mmapWrite [0] [1] = none ∧ mmapSync [0] = none :=
  ⟨rfl, rfl⟩

/-- C6 amended: for every memory-mapped backend, `write` and `sync` are
unavailable — both panic (`unimplemented!()`) for every input — while
positional `read` remains available: in-bounds reads return the requested
slice, out-of-bounds reads an `Io(UnexpectedEof)` error. -/
theorem c6_mmap_write_sync_unavailable (m : MmapIO) (buf : List Nat)
    (bufLen off : Nat) :
    mmapWrite m buf = none ∧ mmapSync m = none ∧
    (off + bufLen ≤ List.length m →
      mmapRead m bufLen off = .ok ((List.take bufLen (List.drop off m)), bufLen)) ∧
    (off + bufLen > List.length m →
      mmapRead m bufLen off = .error (.io .unexpectedEof)) := by
  refine ⟨rfl, rfl, ?_, ?_⟩ <;> intro h <;> unfold mmapRead
  · rw [if_neg (by omega)]
  · rw [if_pos h]

theorem c6_mmap_write_sync_unavailable_witness :
    mmapRead [5, 6] 1 1 = .ok ([6], 1) ∧
    mmapRead [5, 6] 2 1 = .error (.io .unexpectedEof) :=
  ⟨(c6_mmap_write_sync_unavailable [5, 6] [] 1 1).2.2.1 (by norm_num),
    (c6_mmap_write_sync_unavailable [5, 6] [] 2 1).2.2.2 (by norm_num)⟩

/-! ## File handle (`src/storage/file_handle.rs`, claim C7) -/

/-- `FileHandle`: segment id, the shared stored offset (`Datafile.offset`),
and the underlying file bytes (`StandardIO`). -/
structure FileHandle where
  fileId : Nat
  offset : Nat
  contents : List Nat
  deriving DecidableEq, Repr

/-- `FileHandle::read` (file_handle.rs lines 37-42) exactly as committed: it
first stores the requested read offset into the handle's atomic offset
(`self.data.offset.store(offset, Release)`), then delegates to the backend's
positional read (`read_at`: the available bytes and their count). -/
def fhRead (h : FileHandle) (bufLen off : Nat) :
    FileHandle × Except Error (List Nat × Nat) :=
  let h2 := { h with offset := off }
  let bytes := List.take bufLen (List.drop off h.contents)
  (h2, .ok (bytes, bytes.length))

/-- C7 counterexample: reading at offset 100 from a handle whose stored
offset is 5 leaves the stored offset at 100, not 5 — `read` mutates the
offset (the file's own test `test_filehandle_read` asserts exactly this). -/
theorem c7_counterexample :
    (FileHandle.mk 1 5 []).offset = 5 ∧
    (fhRead (FileHandle.mk 1 5 []) 10 100).1.offset = 100 :=
  ⟨rfl, rfl⟩

/-- C7 amended: `read(buf, offset)` stores the requested read offset into the
handle (so the observable offset afterwards is the read offset, not the prior
append offset); the id and the file contents are untouched. -/
theorem c7_read_stores_offset (h : FileHandle) (bufLen off : Nat) :
    (fhRead h bufLen off).1.offset = off ∧
    (fhRead h bufLen off).1.fileId = h.fileId ∧
    (fhRead h bufLen off).1.contents = h.contents :=
  ⟨rfl, rfl, rfl⟩

/-! ## Two-variant state conversion (`src/storage/entry.rs`, claim C10) -/

/-- `State` exactly as committed in `entry.rs` (lines 16-20): two variants,
no `Committed`. -/
inductive EntryState where
  | active
  | inactive
  deriving DecidableEq, Repr

/-- `State::from(u8)` (entry.rs lines 22-31): defined for bytes 0 and 1 only;
every other byte panics (`none`). -/
def EntryState.fromByte : Nat → Option EntryState
  | 0 => some .active
  | 1 => some .inactive
  | _ => none

/-- `state as u8` for the two-variant enum. -/
def EntryState.toByte : EntryState → Nat
  | .active => 0
  | .inactive => 1

theorem EntryState.fromByte_eq_none (b : Nat) (h0 : b ≠ 0) (h1 : b ≠ 1) :
    EntryState.fromByte b = none := by
  match b with
  | 0 => exact absurd rfl h0
  | 1 => exact absurd rfl h1
  | n + 2 => rfl

/-- `DataEntry` with the committed two-variant state. -/
structure EDataEntry where
  key : List Nat
  value : List Nat
  state : EntryState
  deriving DecidableEq, Repr

/-- `encode_and_get_crc` over the two-variant state (identical byte layout). -/
def EDataEntry.encodeAndGetCrc (e : EDataEntry) : Except Error (List Nat × Nat) :=
  if e.key.length = 0 ∧ e.value.length = 0 then .error (.io .unexpectedEof)
  else
    let pre := e.state.toByte ::
      (varintEncode e.key.length ++ varintEncode e.value.length ++ e.key ++ e.value)
    .ok (pre ++ u32be (crc32 pre), crc32 pre)

/-- `DataEntry::decode` (entry.rs lines 129-147) with the committed
two-variant `State::from`: slice the key and value, convert the state byte,
check the CRC.  `none` models the panics (out-of-range slices, `State::from`
on a byte other than 0/1, `get_u32` with fewer than 4 bytes left). -/
def eDecode (body : List Nat) (ksz vsz stByte : Nat) :
    Option (Except Error EDataEntry) :=
  if body.length < ksz + 4 then none
  else
    match EntryState.fromByte stByte with
    | none => none
    | some st =>
      let e : EDataEntry := ⟨body.take ksz, (body.take (body.length - 4)).drop ksz, st⟩
      match getU32 (body.drop (ksz + vsz)) with
      | none => none
      | some stored =>
        match e.encodeAndGetCrc with
        | .error err => some (.error err)
        | .ok p =>
          if stored ≠ p.2 then some (.error (.unsupported "CRC check failed"))
          else some (.ok e)

/-- C10: the byte-to-state conversion of `entry.rs` is defined only for 0
(Active) and 1 (Inactive); every other byte — including 2, the commit-marker
state the on-disk format reserves — panics instead of returning an error, so
a record carrying such a state byte cannot be decoded without aborting. -/
theorem c10_state_from_only_zero_one :
    EntryState.fromByte 0 = some EntryState.active ∧
    EntryState.fromByte 1 = some EntryState.inactive ∧
    (∀ b, b ≠ 0 → b ≠ 1 → EntryState.fromByte b = none) ∧
    (∀ body ksz vsz b, b ≠ 0 → b ≠ 1 → eDecode body ksz vsz b = none) := by
  refine ⟨rfl, rfl, fun b h0 h1 => EntryState.fromByte_eq_none b h0 h1, ?_⟩
  intro body ksz vsz b h0 h1
  unfold eDecode
  split
  · rfl
  · rw [EntryState.fromByte_eq_none b h0 h1]

theorem c10_state_from_only_zero_one_witness :
    EntryState.fromByte 2 = none ∧ eDecode [0, 0, 0, 0, 0] 1 0 2 = none :=
  ⟨c10_state_from_only_zero_one.2.2.1 2 (by decide) (by decide),
    c10_state_from_only_zero_one.2.2.2 [0, 0, 0, 0, 0] 1 0 2 (by decide) (by decide)⟩

/-! ## Recovery scan (`Db::process_file_handle`, claims C1 and C8) -/

/-- State of the recovery scan of one segment: the index under construction,
the buffer of not-yet-committed transaction entries keyed by sequence number,
and the running maximal sequence number. -/
structure ScanSt where
  index : Index
  txns : List (Nat × List (DataEntry × KeyDirEntry))
  maxSeq : Nat
  deriving DecidableEq, Repr

/-- `transactions.entry(seq_no).or_default().push(..)`: append a buffered
entry under its sequence number. -/
def txnsPush (t : List (Nat × List (DataEntry × KeyDirEntry))) (seq : Nat)
    (x : DataEntry × KeyDirEntry) : List (Nat × List (DataEntry × KeyDirEntry)) :=
  if (List.find? (fun p => decide (p.1 = seq)) t).isSome then
    List.map (fun p => if p.1 = seq then (p.1, p.2 ++ [x]) else p) t
  else t ++ [(seq, [x])]

/-- One record's effect on the scan state (db.rs lines 164-198), exactly as
committed.  In the Committed arm each buffered entry is `index.put`
unconditionally, then `index.put` again when its state is Active, while the
non-Active arm deletes `key` — the *commit marker's* decoded user key — not
the buffered entry's own key.  `none` models the
`transactions.get(&seq_no).unwrap()` and `decode_transaction_key` panics. -/
def applyScanRecCore (st : ScanSt) (de : DataEntry) (kde : KeyDirEntry)
    (key : List Nat) (seq : Nat) : Option ScanSt :=
  if seq = 0 then
    match de.state with
    | .active => some { st with index := idxPut st.index key kde }
    | _ => some { st with index := idxDelete st.index key }
  else if de.state = State.committed then
    match List.find? (fun p => decide (p.1 = seq)) st.txns with
    | none => none
    | some p =>
      let ix2 := p.2.foldl (fun ix q =>
        let ix1 := idxPut ix q.1.key q.2
        match q.1.state with
        | .active => idxPut ix1 q.1.key q.2
        | _ => idxDelete ix1 key) st.index
      some { st with
        index := ix2
        txns := List.filter (fun p => !decide (p.1 = seq)) st.txns }
  else
    some { st with txns := txnsPush st.txns seq ({ de with key := key }, kde) }

def applyScanRec (fid : Nat) (st : ScanSt) (de : DataEntry) (off size : Nat) :
    Option ScanSt :=
  let kde : KeyDirEntry := ⟨fid, off, size⟩
  match decode_transaction_key de.key with
  | none => none
  | some (key, seq) =>
    (applyScanRecCore st de kde key seq).map
      (fun st3 => { st3 with maxSeq := if st3.maxSeq < seq then seq else st3.maxSeq })

/-- The `while let Ok` loop of `process_file_handle`: extract records at
increasing offsets until extraction fails (the loop exits on any error, clean
EOF included), then record the final offset (`file.set_offset`).  The fuel
only drives the structural recursion; `file.length + 1` always suffices
because every extracted record is at least one byte long and extraction fails
at or past the end of the file. -/
def scanFrom : Nat → List Nat → Nat → Nat → ScanSt → Option (ScanSt × Nat)
  | 0, _, _, _, _ => none
  | fuel + 1, file, fid, off, st =>
    match extractDataEntry file off with
    | none => none
    | some (.error _) => some (st, off)
    | some (.ok (de, size)) =>
      match applyScanRec fid st de off size with
      | none => none
      | some st2 => scanFrom fuel file fid (off + size) st2

/-- `Db::process_file_handle` on one segment's bytes. -/
def process_file_handle (file : List Nat) (fid : Nat) (st : ScanSt) :
    Option (ScanSt × Nat) :=
  scanFrom (file.length + 1) file fid 0 st

/-- The failing input for claim C1: a tombstone for user key `[107]` buffered
under sequence number 1, followed by that batch's commit marker. -/
def c1tomb : DataEntry := ⟨encode_transaction_key [107] 1, [], State.inactive⟩

def c1marker : DataEntry :=
  ⟨encode_transaction_key committedKey 1, [], State.committed⟩

def c1file : List Nat := c1tomb.encode.toOption.getD [] ++ c1marker.encode.toOption.getD []

set_option maxRecDepth 8000 in
/-- C1 (code bug): scanning a segment that holds a committed batch whose only
entry is a tombstone for key `[107]` leaves the index MAPPING `[107]` to the
tombstone's locator `(0, 0, 9)` — the Committed arm inserts the buffered
entry's key and then deletes the commit marker's own decoded key — where the
spec requires the buffered tombstone to delete `[107]` from the index. -/
theorem c1_committed_replay_bug :
    (process_file_handle c1file 0 ⟨[], [], 0⟩).map
        (fun r => (idxGet r.1.index [107], r.1.maxSeq)) =
      some (some ⟨0, 0, 9⟩, 1) := by
  decide

/-! ## Clean parses of segment files (claim C8) -/

theorem extract_shift (pre X : List Nat) (d : Nat) :
    extractDataEntry (pre ++ X) (pre.length + d) = extractDataEntry X d := by
  unfold extractDataEntry
  rw [List.drop_append]

theorem extract_zero (X : List Nat) : extractDataEntry X 0 = extractSuffix X := by
  unfold extractDataEntry
  rw [List.drop_zero]

theorem extract_past (f : List Nat) (off : Nat) (h : f.length ≤ off) :
    extractDataEntry f off = some (.error (.io .unexpectedEof)) := by
  unfold extractDataEntry
  rw [List.drop_of_length_le h]
  rfl

theorem extract_ok_lt (f : List Nat) (off : Nat) (r : Except Error (DataEntry × Nat))
    (de : DataEntry) (size : Nat) (hr : r = .ok (de, size))
    (h : extractDataEntry f off = some r) : off < f.length := by
  by_contra hc
  push_neg at hc
  rw [extract_past f off hc] at h
  rw [hr] at h
  exact absurd (Option.some.inj h) (by simp)

theorem extractSuffix_ok_size_pos (S : List Nat) (de : DataEntry) (size : Nat)
    (h : extractSuffix S = some (.ok (de, size))) : 1 ≤ size := by
  unfold extractSuffix at h
  cases h1 : decodeHeader (readAt S 0 11) with
  | none => rw [h1] at h; exact absurd h (by simp)
  | some x =>
    cases x with
    | error e =>
      rw [h1] at h
      simp only at h
      exact absurd (Option.some.inj h) (by simp)
    | ok q =>
      obtain ⟨ksz, vsz, hsz, stByte⟩ := q
      rw [h1] at h
      simp only at h
      cases h2 : decodeBody (readAt S hsz (ksz + vsz + 4)) ksz vsz stByte with
      | none => rw [h2] at h; exact absurd h (by simp)
      | some y =>
        cases y with
        | error e =>
          rw [h2] at h
          simp only at h
          exact absurd (Option.some.inj h) (by simp)
        | ok de2 =>
          rw [h2] at h
          simp only at h
          have := congrArg Prod.snd (Except.ok.inj (Option.some.inj h))
          simp only at this
          omega

theorem extract_ok_size_pos (f : List Nat) (off : Nat) (de : DataEntry) (size : Nat)
    (h : extractDataEntry f off = some (.ok (de, size))) : 1 ≤ size :=
  extractSuffix_ok_size_pos (f.drop off) de size h

/-- The entries of the records the scan loop extracts, in file order. -/
def entsFrom : Nat → List Nat → Nat → List DataEntry
  | 0, _, _ => []
  | fuel + 1, file, off =>
    match extractDataEntry file off with
    | some (.ok (de, size)) => de :: entsFrom fuel file (off + size)
    | _ => []

def entsOf (file : List Nat) : List DataEntry := entsFrom (file.length + 1) file 0

theorem entsFrom_congr (f : List Nat) : ∀ (fu1 fu2 off : Nat),
    f.length < fu1 + off → f.length < fu2 + off →
    entsFrom fu1 f off = entsFrom fu2 f off := by
  intro fu1
  induction fu1 with
  | zero =>
    intro fu2 off h1 h2
    cases fu2 with
    | zero => rfl
    | succ k =>
      rw [entsFrom, entsFrom, extract_past f off (by omega)]
  | succ k1 ih =>
    intro fu2 off h1 h2
    cases fu2 with
    | zero =>
      rw [entsFrom, entsFrom, extract_past f off (by omega)]
    | succ k2 =>
      rw [entsFrom, entsFrom]
      cases hE : extractDataEntry f off with
      | none => rfl
      | some r =>
        cases r with
        | error e => rfl
        | ok p =>
          obtain ⟨de, size⟩ := p
          have hlt := extract_ok_lt f off _ de size rfl hE
          have hpos := extract_ok_size_pos f off de size hE
          simp only
          rw [ih k2 (off + size) (by omega) (by omega)]

theorem entsFrom_shift (pre Y : List Nat) : ∀ (fu d : Nat),
    entsFrom fu (pre ++ Y) (pre.length + d) = entsFrom fu Y d := by
  intro fu
  induction fu with
  | zero => intro d; rfl
  | succ k ih =>
    intro d
    rw [entsFrom, entsFrom, extract_shift]
    cases hE : extractDataEntry Y d with
    | none => rfl
    | some r =>
      cases r with
      | error e => rfl
      | ok p =>
        obtain ⟨de, size⟩ := p
        simp only
        rw [show pre.length + d + size = pre.length + (d + size) from by omega]
        rw [ih (d + size)]

/-- Length of an encoded record: at least 7 bytes. -/
theorem encBytes_length_ge (e : DataEntry) : 7 ≤ (encBytes e).length := by
  rw [encBytes_length]
  have h1 := varintLen_pos e.key.length
  have h2 := varintLen_pos e.value.length
  omega

/-- Scanning a file that starts with a valid record encoding yields that
entry followed by the scan of the remainder. -/
theorem ents_cons (e : DataEntry) (Y : List Nat)
    (hne : ¬(e.key.length = 0 ∧ e.value.length = 0))
    (hk : e.key.length < 2 ^ 32) (hv : e.value.length < 2 ^ 32) :
    entsOf (encBytes e ++ Y) = e :: entsOf Y := by
  have hE : extractDataEntry (encBytes e ++ Y) 0 = some (.ok (e, (encBytes e).length)) := by
    rw [extract_zero]
    exact extractSuffix_enc e Y hne hk hv
  have hmin := encBytes_length_ge e
  unfold entsOf
  rw [show (encBytes e ++ Y).length + 1 = ((encBytes e ++ Y).length) + 1 from rfl]
  rw [entsFrom, hE]
  simp only
  congr 1
  have h0 : (0 : Nat) + (encBytes e).length = (encBytes e).length + 0 := by omega
  rw [h0, entsFrom_shift (encBytes e) Y _ 0]
  apply entsFrom_congr
  · simp only [List.length_append]
    omega
  · omega

/-- A cleanly parseable segment: a concatenation of valid record encodings
whose key and value lengths fit the extraction header's varint bounds. -/
inductive WfFile : List Nat → Prop
  | nil : WfFile []
  | cons (e : DataEntry) (f : List Nat) :
      ¬(e.key.length = 0 ∧ e.value.length = 0) →
      e.key.length < 2 ^ 32 → e.value.length < 2 ^ 32 →
      WfFile f → WfFile (encBytes e ++ f)

theorem WfFile.append (f : List Nat) (hwf : WfFile f) (e : DataEntry)
    (hne : ¬(e.key.length = 0 ∧ e.value.length = 0))
    (hk : e.key.length < 2 ^ 32) (hv : e.value.length < 2 ^ 32) :
    WfFile (f ++ encBytes e) := by
  induction hwf with
  | nil =>
    have := WfFile.cons e [] hne hk hv WfFile.nil
    simpa using this
  | cons e0 f0 hne0 hk0 hv0 hwf0 ih =>
    rw [List.append_assoc]
    exact WfFile.cons e0 (f0 ++ encBytes e) hne0 hk0 hv0 ih

/-- Appending a valid record encoding to a cleanly parseable file appends its
entry to the scanned record list. -/
theorem entsOf_append (f : List Nat) (hwf : WfFile f) (e : DataEntry)
    (hne : ¬(e.key.length = 0 ∧ e.value.length = 0))
    (hk : e.key.length < 2 ^ 32) (hv : e.value.length < 2 ^ 32) :
    entsOf (f ++ encBytes e) = entsOf f ++ [e] := by
  induction hwf with
  | nil =>
    simp only [List.nil_append]
    rw [show encBytes e = encBytes e ++ [] from by simp]
    rw [ents_cons e [] hne hk hv]
    rfl
  | cons e0 f0 hne0 hk0 hv0 hwf0 ih =>
    rw [List.append_assoc]
    rw [ents_cons e0 (f0 ++ encBytes e) hne0 hk0 hv0]
    rw [ih]
    rw [ents_cons e0 f0 hne0 hk0 hv0]
    simp

/-! ## Sequence numbers on disk (claim C8) -/

/-- The sequence number carried by a record's transaction-scoped key (0 when
the key does not decode). -/
def seqOf (de : DataEntry) : Nat :=
  match decode_transaction_key de.key with
  | some p => p.2
  | none => 0

theorem seqOf_txnkey (k v : List Nat) (st : State) (q : Nat) (h : q < 2 ^ 32) :
    seqOf ⟨encode_transaction_key k q, v, st⟩ = q := by
  unfold seqOf
  simp only
  rw [decode_encode_transaction_key k q h]

/-- The sequence numbers of a segment file's records. -/
def fileSeqs (file : List Nat) : List Nat := (entsOf file).map seqOf

/-- All segment files of a database state, the active one last. -/
def allFiles (s : Db) : List (Nat × List Nat) :=
  s.inactive ++ [(s.activeId, s.active)]

/-- Every sequence number present in any record on disk. -/
def diskSeqs (s : Db) : List Nat := (allFiles s).flatMap (fun p => fileSeqs p.2)

theorem applyScanRecCore_maxSeq (st : ScanSt) (de : DataEntry) (kde : KeyDirEntry)
    (key : List Nat) (seq : Nat) (st3 : ScanSt)
    (h : applyScanRecCore st de kde key seq = some st3) : st3.maxSeq = st.maxSeq := by
  unfold applyScanRecCore at h
  split at h
  · split at h <;> (have h9 := Option.some.inj h; rw [← h9])
  · split at h
    · split at h
      · exact absurd h (by simp)
      · have := Option.some.inj h
        rw [← this]
    · have := Option.some.inj h
      rw [← this]

theorem applyScanRec_maxSeq (fid : Nat) (st : ScanSt) (de : DataEntry)
    (off size : Nat) (st2 : ScanSt)
    (h : applyScanRec fid st de off size = some st2) :
    st2.maxSeq = max st.maxSeq (seqOf de) := by
  unfold applyScanRec at h
  cases hd : decode_transaction_key de.key with
  | none => rw [hd] at h; exact absurd h (by simp)
  | some p =>
    obtain ⟨key, seq⟩ := p
    rw [hd] at h
    simp only [Option.map_eq_some'] at h
    obtain ⟨st3, hcore, hmk⟩ := h
    have hmax := applyScanRecCore_maxSeq st de _ key seq st3 hcore
    have hseq : seqOf de = seq := by unfold seqOf; rw [hd]
    rw [← hmk]
    simp only [hmax, hseq]
    rw [Nat.max_def]
    split <;> split <;> omega

theorem scanFrom_maxSeq (fid : Nat) : ∀ (fu : Nat) (f : List Nat) (off : Nat)
    (st st' : ScanSt) (endOff : Nat),
    scanFrom fu f fid off st = some (st', endOff) →
    st'.maxSeq = ((entsFrom fu f off).map seqOf).foldl max st.maxSeq := by
  intro fu
  induction fu with
  | zero => intro f off st st' endOff h; exact absurd h (by simp [scanFrom])
  | succ k ih =>
    intro f off st st' endOff h
    rw [scanFrom] at h
    rw [entsFrom]
    cases hE : extractDataEntry f off with
    | none => rw [hE] at h; exact absurd h (by simp)
    | some r =>
      rw [hE] at h
      cases r with
      | error e =>
        simp only at h
        have h1 := congrArg Prod.fst (Option.some.inj h)
        simp only at h1
        simp only [List.map_nil, List.foldl_nil]
        rw [← h1]
      | ok p =>
        obtain ⟨de, size⟩ := p
        simp only at h
        cases hA : applyScanRec fid st de off size with
        | none => rw [hA] at h; exact absurd h (by simp)
        | some st2 =>
          rw [hA] at h
          have hmax := applyScanRec_maxSeq fid st de off size st2 hA
          have hrec := ih f (off + size) st2 st' endOff h
          simp only [List.map_cons, List.foldl_cons]
          rw [hrec, hmax]

theorem foldl_max_lt (l : List Nat) : ∀ (m B : Nat), m < B → (∀ x ∈ l, x < B) →
    l.foldl max m < B := by
  induction l with
  | nil => intro m B hm _; simpa using hm
  | cons a t ih =>
    intro m B hm hl
    simp only [List.foldl_cons]
    refine ih _ B ?_ (fun x hx => hl x (List.mem_cons_of_mem _ hx))
    have := hl a (List.mem_cons_self _ _)
    omega

theorem le_foldl_max (l : List Nat) : ∀ (m : Nat),
    m ≤ l.foldl max m ∧ ∀ x ∈ l, x ≤ l.foldl max m := by
  induction l with
  | nil => intro m; exact ⟨le_refl _, by simp⟩
  | cons a t ih =>
    intro m
    simp only [List.foldl_cons]
    obtain ⟨h1, h2⟩ := ih (max m a)
    refine ⟨le_trans (le_max_left _ _) h1, ?_⟩
    intro x hx
    rcases List.mem_cons.mp hx with hx | hx
    · subst hx
      exact le_trans (le_max_right m x) h1
    · exact h2 x hx

/-! ## Reopening a directory (`Db::open`, claim C8) -/

/-- Insertion sort on file ids (`file_ids.sort()`). -/
def insSorted (x : Nat × List Nat) : List (Nat × List Nat) → List (Nat × List Nat)
  | [] => [x]
  | y :: ys => if x.1 ≤ y.1 then x :: y :: ys else y :: insSorted x ys

def sortFiles (l : List (Nat × List Nat)) : List (Nat × List Nat) :=
  l.foldr insSorted []

theorem mem_insSorted (x a : Nat × List Nat) : ∀ (l : List (Nat × List Nat)),
    (a ∈ insSorted x l ↔ a = x ∨ a ∈ l) := by
  intro l
  induction l with
  | nil => simp [insSorted]
  | cons y ys ih =>
    unfold insSorted
    split
    · simp
    · simp only [List.mem_cons, ih]
      tauto

theorem mem_sortFiles (l : List (Nat × List Nat)) (a : Nat × List Nat) :
    a ∈ sortFiles l ↔ a ∈ l := by
  induction l with
  | nil => simp [sortFiles]
  | cons y ys ih =>
    show a ∈ insSorted y (sortFiles ys) ↔ _
    rw [mem_insSorted, ih]
    simp

theorem length_insSorted (x : Nat × List Nat) : ∀ (l : List (Nat × List Nat)),
    (insSorted x l).length = l.length + 1 := by
  intro l
  induction l with
  | nil => rfl
  | cons y ys ih =>
    unfold insSorted
    split
    · simp
    · simp [ih]

theorem length_sortFiles (l : List (Nat × List Nat)) :
    (sortFiles l).length = l.length := by
  induction l with
  | nil => rfl
  | cons y ys ih =>
    show (insSorted y (sortFiles ys)).length = _
    rw [length_insSorted, ih]
    rfl

/-- The segment scan of `Db::open`: files in ascending id order, the active
candidate last; each segment is scanned by `process_file_handle` with the
shared index and running maximal sequence number (the transaction buffer is
local to each file).  Returns the final index, maximal sequence number and
the last file's end offset. -/
def scanAll : List (Nat × List Nat) → Index → Nat → Option (Index × Nat × Nat)
  | [], ix, m => some (ix, m, 0)
  | (fid, f) :: rest, ix, m =>
    match process_file_handle f fid ⟨ix, [], m⟩ with
    | none => none
    | some (st2, endOff) =>
      match rest with
      | [] => some (st2.index, st2.maxSeq, endOff)
      | _ :: _ => scanAll rest st2.index st2.maxSeq

/-- `Db::open` on the segment files of an existing database (merge recovery
and the hint file are absent from the modelled directory state): sort the
segments ascending by id, scan them all into a fresh index while tracking the
maximal sequence number, make the highest-id segment active with its offset
at the scan's end, and set the `u32` sequence counter to `max_seq_no + 1`.
`none` models the scan panics. -/
def reopenDb (s : Db) : Option Db :=
  match sortFiles (allFiles s) with
  | [] => none
  | a :: l =>
    match scanAll (a :: l) [] 0 with
    | none => none
    | some (ix, maxSeq, endOff) =>
      some { opts := s.opts
             activeId := ((a :: l).getLast (by simp)).1
             active := ((a :: l).getLast (by simp)).2
             activeOff := endOff
             inactive := (a :: l).dropLast
             index := ix
             seqNo := (maxSeq + 1) % 2 ^ 32 }

theorem scanAll_maxSeq : ∀ (l : List (Nat × List Nat)) (ix : Index) (m : Nat)
    (r : Index × Nat × Nat), scanAll l ix m = some r →
    r.2.1 = (l.flatMap (fun p => fileSeqs p.2)).foldl max m := by
  intro l
  induction l with
  | nil =>
    intro ix m r h
    have := Option.some.inj h
    rw [← this]
    simp
  | cons a rest ih =>
    intro ix m r h
    obtain ⟨fid, f⟩ := a
    rw [scanAll] at h
    cases hp : process_file_handle f fid ⟨ix, [], m⟩ with
    | none => rw [hp] at h; exact absurd h (by simp)
    | some q =>
      obtain ⟨st2, endOff⟩ := q
      rw [hp] at h
      simp only at h
      have hst2 : st2.maxSeq = (fileSeqs f).foldl max m := by
        have := scanFrom_maxSeq fid (f.length + 1) f 0 ⟨ix, [], m⟩ st2 endOff hp
        simpa [fileSeqs, entsOf] using this
      cases rest with
      | nil =>
        have h1 := Option.some.inj h
        rw [← h1]
        simp only [List.flatMap_cons, List.flatMap_nil, List.append_nil]
        exact hst2
      | cons b rest2 =>
        have := ih st2.index st2.maxSeq r h
        rw [this, hst2]
        simp only [List.flatMap_cons]
        rw [← List.foldl_append]

/-! ## The sequence-number invariant (claim C8) -/

/-- All segment files are cleanly parseable. -/
def WfFiles (s : Db) : Prop :=
  WfFile s.active ∧ ∀ p ∈ s.inactive, WfFile p.2

/-- The configured size limits fit the codec's header bounds. -/
def OptsOk (s : Db) : Prop :=
  s.opts.maxKeySize + 1 < 2 ^ 32 ∧ s.opts.maxValueSize < 2 ^ 32

/-- The claim C8 invariant: the sequence counter is a positive `u32` that
strictly exceeds every sequence number present on disk, over cleanly
parseable files. -/
def SeqInv (s : Db) : Prop :=
  0 < s.seqNo ∧ s.seqNo < 2 ^ 32 ∧ (∀ q ∈ diskSeqs s, q < s.seqNo) ∧
  WfFiles s ∧ OptsOk s

theorem fileSeqs_append (f : List Nat) (hwf : WfFile f) (e : DataEntry)
    (hne : ¬(e.key.length = 0 ∧ e.value.length = 0))
    (hk : e.key.length < 2 ^ 32) (hv : e.value.length < 2 ^ 32) :
    fileSeqs (f ++ encBytes e) = fileSeqs f ++ [seqOf e] := by
  unfold fileSeqs
  rw [entsOf_append f hwf e hne hk hv]
  simp

theorem mem_diskSeqs_of_inactive (s : Db) (p : Nat × List Nat) (q : Nat)
    (hp : p ∈ s.inactive) (hq : q ∈ fileSeqs p.2) : q ∈ diskSeqs s := by
  unfold diskSeqs
  rw [List.mem_flatMap]
  exact ⟨p, by unfold allFiles; exact List.mem_append_left _ hp, hq⟩

theorem mem_diskSeqs_of_active (s : Db) (q : Nat)
    (hq : q ∈ fileSeqs s.active) : q ∈ diskSeqs s := by
  unfold diskSeqs
  rw [List.mem_flatMap]
  exact ⟨(s.activeId, s.active),
    by unfold allFiles; exact List.mem_append_right _ (by simp), hq⟩

/-- What a successful `append_entry` does to the files and their sequence
numbers: files stay cleanly parseable, options and counter are untouched, and
the only sequence number the disk gains is the appended record's. -/
theorem append_entry_seqs (s : Db) (e : DataEntry) (s2 : Db) (kde : KeyDirEntry)
    (hwfa : WfFile s.active) (hwfi : ∀ p ∈ s.inactive, WfFile p.2)
    (hne : ¬(e.key.length = 0 ∧ e.value.length = 0))
    (hk : e.key.length < 2 ^ 32) (hv : e.value.length < 2 ^ 32)
    (happ : append_entry s e = .ok (s2, kde)) :
    WfFile s2.active ∧ (∀ p ∈ s2.inactive, WfFile p.2) ∧
    s2.opts = s.opts ∧ s2.seqNo = s.seqNo ∧
    (∀ q ∈ diskSeqs s2, q ∈ diskSeqs s ∨ q = seqOf e) := by
  have hwfe : WfFile (encBytes e) := by
    have := WfFile.cons e [] hne hk hv WfFile.nil
    simpa using this
  unfold append_entry at happ
  rw [encode_eq e hne] at happ
  simp only at happ
  by_cases hrot : s.activeOff + (encBytes e).length > s.opts.dataFileSize
  · rw [if_pos hrot] at happ
    simp only at happ
    have h1 := congrArg Prod.fst (Except.ok.inj happ)
    simp only at h1
    subst h1
    refine ⟨by simpa using hwfe, ?_, rfl, rfl, ?_⟩
    · intro p hp
      simp only [insertFile, List.mem_cons, List.mem_filter] at hp
      rcases hp with hp | ⟨hp, _⟩
      · subst hp
        exact hwfa
      · exact hwfi p hp
    · intro q hq
      unfold diskSeqs at hq
      rw [List.mem_flatMap] at hq
      obtain ⟨p, hp, hqp⟩ := hq
      unfold allFiles at hp
      simp only at hp
      rcases List.mem_append.mp hp with hp | hp
      · simp only [insertFile, List.mem_cons, List.mem_filter] at hp
        rcases hp with hp | ⟨hp, _⟩
        · subst hp
          exact Or.inl (mem_diskSeqs_of_active s q hqp)
        · exact Or.inl (mem_diskSeqs_of_inactive s p q hp hqp)
      · rw [List.mem_singleton] at hp
        subst hp
        simp only [List.nil_append] at hqp
        have hfe : fileSeqs (encBytes e) = [seqOf e] := by
          have := fileSeqs_append [] WfFile.nil e hne hk hv
          simp only [List.nil_append] at this
          rw [this]
          rfl
        rw [hfe] at hqp
        exact Or.inr (List.mem_singleton.mp hqp)
  · rw [if_neg hrot] at happ
    have h1 := congrArg Prod.fst (Except.ok.inj happ)
    simp only at h1
    subst h1
    refine ⟨WfFile.append s.active hwfa e hne hk hv, hwfi, rfl, rfl, ?_⟩
    intro q hq
    unfold diskSeqs at hq
    rw [List.mem_flatMap] at hq
    obtain ⟨p, hp, hqp⟩ := hq
    unfold allFiles at hp
    simp only at hp
    rcases List.mem_append.mp hp with hp | hp
    · exact Or.inl (mem_diskSeqs_of_inactive s p q hp hqp)
    · rw [List.mem_singleton] at hp
      subst hp
      simp only at hqp
      rw [fileSeqs_append s.active hwfa e hne hk hv] at hqp
      rcases List.mem_append.mp hqp with hqp | hqp
      · exact Or.inl (mem_diskSeqs_of_active s q hqp)
      · exact Or.inr (List.mem_singleton.mp hqp)

theorem diskSeqs_index_update (s2 : Db) (ix : Index) :
    diskSeqs { s2 with index := ix } = diskSeqs s2 := rfl

theorem encode_transaction_key_length (k : List Nat) (q : Nat) :
    (encode_transaction_key k q).length = varintLen q + k.length := by
  unfold encode_transaction_key varintLen
  simp

theorem varintLen_le_five (q : Nat) (h : q < 2 ^ 32) : varintLen q ≤ 5 :=
  varintLen_le q 5 (by omega) (lt_of_lt_of_le h (by norm_num))

/-- `Db::put` preserves the sequence-number invariant and the counter. -/
theorem step_put (s : Db) (k v : List Nat) (hInv : SeqInv s) :
    SeqInv (dbPut s k v).1 ∧ (dbPut s k v).1.seqNo = s.seqNo := by
  obtain ⟨hpos, hlt, hdisk, ⟨hwfa, hwfi⟩, hopts⟩ := hInv
  unfold dbPut
  by_cases hro : s.opts.readOnly
  · rw [if_pos hro]
    exact ⟨⟨hpos, hlt, hdisk, ⟨hwfa, hwfi⟩, hopts⟩, rfl⟩
  rw [if_neg hro]
  by_cases hk : k.length = 0 ∨ k.length > s.opts.maxKeySize
  · rw [if_pos hk]
    exact ⟨⟨hpos, hlt, hdisk, ⟨hwfa, hwfi⟩, hopts⟩, rfl⟩
  rw [if_neg hk]
  push_neg at hk
  by_cases hv : v.length > s.opts.maxValueSize
  · rw [if_pos hv]
    exact ⟨⟨hpos, hlt, hdisk, ⟨hwfa, hwfi⟩, hopts⟩, rfl⟩
  rw [if_neg hv]
  cases happ : append_entry s ⟨encode_transaction_key k 0, v, .active⟩ with
  | error err =>
    simp only [happ]
    exact ⟨⟨hpos, hlt, hdisk, ⟨hwfa, hwfi⟩, hopts⟩, by trivial⟩
  | ok pair =>
    obtain ⟨s2, kde⟩ := pair
    simp only [happ]
    have hne' : ¬((putEntry k v).key.length = 0 ∧ (putEntry k v).value.length = 0) :=
      fun hc => putEntry_key_ne k v hc.1
    have hk' : (putEntry k v).key.length < 2 ^ 32 := by
      rw [putEntry_key_length]
      obtain ⟨_, hk2⟩ := hk
      obtain ⟨ho1, _⟩ := hopts
      omega
    have hv' : (putEntry k v).value.length < 2 ^ 32 := by
      show v.length < 2 ^ 32
      obtain ⟨_, ho2⟩ := hopts
      omega
    obtain ⟨hwfa2, hwfi2, hopts2, hseq2, hdisk2⟩ :=
      append_entry_seqs s (putEntry k v) s2 kde hwfa hwfi hne' hk' hv' happ
    have hseqOf : seqOf (putEntry k v) = 0 := seqOf_txnkey k v .active 0 (by norm_num)
    refine ⟨⟨?_, ?_, ?_, ⟨hwfa2, hwfi2⟩, ?_⟩, ?_⟩
    · show 0 < s2.seqNo
      omega
    · show s2.seqNo < 2 ^ 32
      omega
    · intro q hq
      rw [diskSeqs_index_update] at hq
      show q < s2.seqNo
      rcases hdisk2 q hq with hq | hq
      · have := hdisk q hq
        omega
      · rw [hseqOf] at hq
        omega
    · show OptsOk { s2 with index := idxPut s2.index k kde }
      unfold OptsOk at hopts ⊢
      rw [show ({ s2 with index := idxPut s2.index k kde } : Db).opts = s.opts from hopts2]
      exact hopts
    · exact hseq2

/-- `Db::delete` preserves the sequence-number invariant and the counter. -/
theorem step_del (s : Db) (k : List Nat) (hInv : SeqInv s) :
    SeqInv (dbDelete s k).1 ∧ (dbDelete s k).1.seqNo = s.seqNo := by
  obtain ⟨hpos, hlt, hdisk, ⟨hwfa, hwfi⟩, hopts⟩ := hInv
  unfold dbDelete
  by_cases hro : s.opts.readOnly
  · rw [if_pos hro]
    exact ⟨⟨hpos, hlt, hdisk, ⟨hwfa, hwfi⟩, hopts⟩, rfl⟩
  rw [if_neg hro]
  by_cases hk0 : k.length = 0
  · rw [if_pos hk0]
    exact ⟨⟨hpos, hlt, hdisk, ⟨hwfa, hwfi⟩, hopts⟩, rfl⟩
  rw [if_neg hk0]
  by_cases hkm : k.length > s.opts.maxKeySize
  · rw [if_pos hkm]
    exact ⟨⟨hpos, hlt, hdisk, ⟨hwfa, hwfi⟩, hopts⟩, rfl⟩
  rw [if_neg hkm]
  by_cases hmiss : (idxGet s.index k).isNone
  · rw [if_pos hmiss]
    exact ⟨⟨hpos, hlt, hdisk, ⟨hwfa, hwfi⟩, hopts⟩, rfl⟩
  rw [if_neg hmiss]
  cases happ : append_entry s ⟨encode_transaction_key k 0, [], .inactive⟩ with
  | error err =>
    simp only [happ]
    exact ⟨⟨hpos, hlt, hdisk, ⟨hwfa, hwfi⟩, hopts⟩, by trivial⟩
  | ok pair =>
    obtain ⟨s2, kde⟩ := pair
    simp only [happ]
    have hne' : ¬((encode_transaction_key k 0).length = 0 ∧ ([] : List Nat).length = 0) := by
      intro hc
      exact encode_transaction_key_ne_nil k 0 (List.length_eq_zero.mp hc.1)
    have hk' : (encode_transaction_key k 0).length < 2 ^ 32 := by
      rw [encode_transaction_key_length]
      have h5 : varintLen 0 = 1 := rfl
      obtain ⟨ho1, _⟩ := hopts
      omega
    obtain ⟨hwfa2, hwfi2, hopts2, hseq2, hdisk2⟩ :=
      append_entry_seqs s ⟨encode_transaction_key k 0, [], .inactive⟩ s2 kde hwfa hwfi
        hne' hk' (by norm_num) happ
    have hseqOf : seqOf ⟨encode_transaction_key k 0, [], State.inactive⟩ = 0 :=
      seqOf_txnkey k [] .inactive 0 (by norm_num)
    refine ⟨⟨?_, ?_, ?_, ⟨hwfa2, hwfi2⟩, ?_⟩, ?_⟩
    · show 0 < s2.seqNo
      omega
    · show s2.seqNo < 2 ^ 32
      omega
    · intro q hq
      rw [diskSeqs_index_update] at hq
      show q < s2.seqNo
      rcases hdisk2 q hq with hq | hq
      · have := hdisk q hq
        omega
      · rw [hseqOf] at hq
        omega
    · show OptsOk { s2 with index := idxDelete s2.index k }
      unfold OptsOk at hopts ⊢
      rw [show ({ s2 with index := idxDelete s2.index k } : Db).opts = s.opts from hopts2]
      exact hopts
    · exact hseq2

/-- The batch append loop keeps the files cleanly parseable and adds only the
batch's own sequence number to the disk. -/
theorem commitLoop_seqs (seq : Nat) (hseqlt : seq < 2 ^ 32)
    (pending : List DataEntry) :
    ∀ (s : Db) (acc : List (List Nat × KeyDirEntry)),
      (∀ e ∈ pending, e.key.length + 5 < 2 ^ 32 ∧ e.value.length < 2 ^ 32) →
      WfFile s.active → (∀ p ∈ s.inactive, WfFile p.2) →
      WfFile (commitLoop s seq pending acc).1.active ∧
      (∀ p ∈ (commitLoop s seq pending acc).1.inactive, WfFile p.2) ∧
      (commitLoop s seq pending acc).1.opts = s.opts ∧
      (commitLoop s seq pending acc).1.seqNo = s.seqNo ∧
      (∀ q ∈ diskSeqs (commitLoop s seq pending acc).1,
        q ∈ diskSeqs s ∨ q = seq) := by
  induction pending with
  | nil =>
    intro s acc _ hwfa hwfi
    exact ⟨hwfa, hwfi, rfl, rfl, fun q hq => Or.inl hq⟩
  | cons e t ih =>
    intro s acc hb hwfa hwfi
    rw [commitLoop]
    cases happ : append_entry s ⟨encode_transaction_key e.key seq, e.value, e.state⟩ with
    | error err =>
      simp only [happ]
      exact ⟨hwfa, hwfi, by trivial, by trivial, fun q hq => Or.inl hq⟩
    | ok pair =>
      obtain ⟨s2, kde⟩ := pair
      simp only [happ]
      have hbe := hb e (List.mem_cons_self _ _)
      have hbt := fun d hd => hb d (List.mem_cons_of_mem _ hd)
      have hne' : ¬((encode_transaction_key e.key seq).length = 0 ∧
          e.value.length = 0) := by
        intro hc
        exact encode_transaction_key_ne_nil e.key seq (List.length_eq_zero.mp hc.1)
      have hk' : (encode_transaction_key e.key seq).length < 2 ^ 32 := by
        rw [encode_transaction_key_length]
        have h5 := varintLen_le_five seq hseqlt
        omega
      obtain ⟨hwfa2, hwfi2, hopts2, hseq2, hdisk2⟩ :=
        append_entry_seqs s ⟨encode_transaction_key e.key seq, e.value, e.state⟩ s2 kde
          hwfa hwfi hne' hk' (by show e.value.length < 2 ^ 32; omega) happ
      have hseqOf : seqOf ⟨encode_transaction_key e.key seq, e.value, e.state⟩ = seq :=
        seqOf_txnkey e.key e.value e.state seq hseqlt
      obtain ⟨hA, hB, hC, hD, hE⟩ := ih s2 (acc ++ [(e.key, kde)]) hbt hwfa2 hwfi2
      refine ⟨hA, hB, by rw [hC, hopts2], by rw [hD, hseq2], ?_⟩
      intro q hq
      rcases hE q hq with hq | hq
      · rcases hdisk2 q hq with hq | hq
        · exact Or.inl hq
        · rw [hseqOf] at hq
          exact Or.inr hq
      · exact Or.inr hq

/-- `WriteBatch::commit` preserves the sequence-number invariant (when the
`u32` counter does not wrap) and advances the counter by at most one. -/
theorem step_commit (s : Db) (pending : List DataEntry) (wopts : WriteBatchOptions)
    (res : Db × Except Error Unit)
    (hInv : SeqInv s)
    (hb : ∀ e ∈ pending, e.key.length + 5 < 2 ^ 32 ∧ e.value.length < 2 ^ 32)
    (hnw : s.seqNo + 1 < 2 ^ 32)
    (h : wbCommit s pending wopts = some res) :
    SeqInv res.1 ∧ res.1.seqNo ≤ s.seqNo + 1 := by
  obtain ⟨hpos, hlt, hdisk, ⟨hwfa, hwfi⟩, hopts⟩ := hInv
  unfold wbCommit at h
  by_cases h0 : pending.length = 0
  · rw [if_pos h0] at h
    have hres := Option.some.inj h
    have hres1 : res.1 = s := by rw [← hres]
    rw [hres1]
    exact ⟨⟨hpos, hlt, hdisk, ⟨hwfa, hwfi⟩, hopts⟩, by omega⟩
  rw [if_neg h0] at h
  by_cases hmax : pending.length > wopts.maxBatchNum
  · rw [if_pos hmax] at h
    have hres := Option.some.inj h
    have hres1 : res.1 = s := by rw [← hres]
    rw [hres1]
    exact ⟨⟨hpos, hlt, hdisk, ⟨hwfa, hwfi⟩, hopts⟩, by omega⟩
  rw [if_neg hmax] at h
  simp only at h
  have hmod : (s.seqNo + 1) % 2 ^ 32 = s.seqNo + 1 := Nat.mod_eq_of_lt hnw
  cases hloop : commitLoop { s with seqNo := (s.seqNo + 1) % 2 ^ 32 }
      s.seqNo pending [] with
  | mk s1 lres =>
    simp only [hloop] at h
    have hcl := commitLoop_seqs s.seqNo hlt pending
      { s with seqNo := (s.seqNo + 1) % 2 ^ 32 } [] hb hwfa hwfi
    rw [hloop] at hcl
    obtain ⟨hwfa1, hwfi1, hopts1, hseq1, hdisk1⟩ := hcl
    simp only at hwfa1 hwfi1 hopts1 hseq1 hdisk1
    have hseq1' : s1.seqNo = s.seqNo + 1 := by rw [hseq1, hmod]
    have hInv1 : SeqInv s1 := by
      refine ⟨by omega, by omega, ?_, ⟨hwfa1, hwfi1⟩, ?_⟩
      · intro q hq
        rcases hdisk1 q hq with hq | hq
        · have := hdisk q hq
          omega
        · omega
      · unfold OptsOk at hopts ⊢
        rw [hopts1]
        exact hopts
    cases lres with
    | error err =>
      have hres := Option.some.inj h
      have hres1 : res.1 = s1 := by rw [← hres]
      rw [hres1]
      exact ⟨hInv1, by omega⟩
    | ok kdes =>
      cases happ : append_entry s1
          ⟨encode_transaction_key committedKey s.seqNo, [], .committed⟩ with
      | error err =>
        simp only [happ] at h
        have hres := Option.some.inj h
        have hres1 : res.1 = s1 := by rw [← hres]
        rw [hres1]
        exact ⟨hInv1, by omega⟩
      | ok pair =>
        obtain ⟨s2, kdeM⟩ := pair
        simp only [happ] at h
        have hne' : ¬((encode_transaction_key committedKey s.seqNo).length = 0 ∧
            ([] : List Nat).length = 0) := by
          intro hc
          exact encode_transaction_key_ne_nil committedKey s.seqNo
            (List.length_eq_zero.mp hc.1)
        have hk' : (encode_transaction_key committedKey s.seqNo).length < 2 ^ 32 := by
          rw [encode_transaction_key_length]
          have h5 := varintLen_le_five s.seqNo hlt
          have h13 : committedKey.length = 13 := rfl
          omega
        obtain ⟨hwfa2, hwfi2, hopts2, hseq2, hdisk2⟩ :=
          append_entry_seqs s1 ⟨encode_transaction_key committedKey s.seqNo, [],
            .committed⟩ s2 kdeM hwfa1 hwfi1 hne' hk' (by norm_num) happ
        have hseqOf : seqOf ⟨encode_transaction_key committedKey s.seqNo, [],
            State.committed⟩ = s.seqNo :=
          seqOf_txnkey committedKey [] .committed s.seqNo hlt
        cases hfold : pending.foldl (commitIndexStep kdes) (some s2.index) with
        | none =>
          simp only [hfold] at h
          exact absurd h (by simp)
        | some ix2 =>
          simp only [hfold] at h
          have hres := Option.some.inj h
          have hres1 : res.1 = { s2 with index := ix2 } := by rw [← hres]
          rw [hres1]
          obtain ⟨hi1, hi2, hi3, ⟨hia, hii⟩, hio⟩ := hInv1
          have hs2seq : s2.seqNo = s1.seqNo := hseq2
          refine ⟨⟨?_, ?_, ?_, ⟨hwfa2, hwfi2⟩, ?_⟩, ?_⟩
          · show 0 < s2.seqNo
            omega
          · show s2.seqNo < 2 ^ 32
            omega
          · intro q hq
            rw [diskSeqs_index_update] at hq
            show q < s2.seqNo
            rcases hdisk2 q hq with hq | hq
            · have := hi3 q hq
              omega
            · rw [hseqOf] at hq
              omega
          · unfold OptsOk at hio ⊢
            rw [show ({ s2 with index := ix2 } : Db).opts = s1.opts from hopts2]
            exact hio
          · show s2.seqNo ≤ s.seqNo + 1
            omega

/-- Opening the files of a directory establishes the sequence-number
invariant: the fresh counter is the scanned maximum plus one, which strictly
exceeds every sequence number on disk and stays below every bound the disk
sequence numbers stay below. -/
theorem reopen_establishes (s s2 : Db)
    (hwfa : WfFile s.active) (hwfi : ∀ p ∈ s.inactive, WfFile p.2)
    (hopts : OptsOk s)
    (hseqs : ∀ q ∈ diskSeqs s, q + 1 < 2 ^ 32)
    (h : reopenDb s = some s2) :
    SeqInv s2 ∧ ∀ B, 0 < B → (∀ q ∈ diskSeqs s, q < B) → s2.seqNo ≤ B := by
  unfold reopenDb at h
  cases hfs : sortFiles (allFiles s) with
  | nil => rw [hfs] at h; exact absurd h (by simp)
  | cons a l =>
    rw [hfs] at h
    simp only at h
    cases hscan : scanAll (a :: l) [] 0 with
    | none => rw [hscan] at h; exact absurd h (by simp)
    | some trip =>
      obtain ⟨ix, maxSeq, endOff⟩ := trip
      rw [hscan] at h
      simp only at h
      have hs2 := Option.some.inj h
      have hmax := scanAll_maxSeq (a :: l) [] 0 (ix, maxSeq, endOff) hscan
      simp only at hmax
      have hmem : ∀ q, q ∈ (a :: l).flatMap (fun p => fileSeqs p.2) ↔ q ∈ diskSeqs s := by
        intro q
        rw [List.mem_flatMap]
        unfold diskSeqs
        rw [List.mem_flatMap]
        constructor
        · rintro ⟨p, hp, hq⟩
          rw [← hfs] at hp
          exact ⟨p, (mem_sortFiles _ _).mp hp, hq⟩
        · rintro ⟨p, hp, hq⟩
          refine ⟨p, ?_, hq⟩
          rw [← hfs]
          exact (mem_sortFiles _ _).mpr hp
      have hub : maxSeq < 2 ^ 32 - 1 := by
        rw [hmax]
        refine foldl_max_lt _ 0 (2 ^ 32 - 1) (by norm_num) ?_
        intro x hx
        have := hseqs x ((hmem x).mp hx)
        omega
      have hmod : (maxSeq + 1) % 2 ^ 32 = maxSeq + 1 := Nat.mod_eq_of_lt (by omega)
      have hAFwf : ∀ p ∈ allFiles s, WfFile p.2 := by
        intro p hp
        unfold allFiles at hp
        rcases List.mem_append.mp hp with hp | hp
        · exact hwfi p hp
        · rw [List.mem_singleton] at hp
          subst hp
          exact hwfa
      have hlastmem : (a :: l).getLast (by simp) ∈ allFiles s := by
        have h1 : (a :: l).getLast (by simp) ∈ (a :: l) := List.getLast_mem _
        have h2 : (a :: l).getLast (by simp) ∈ sortFiles (allFiles s) := by
          rw [hfs]
          exact h1
        exact (mem_sortFiles _ _).mp h2
      have hAF2 : allFiles s2 = a :: l := by
        rw [← hs2]
        unfold allFiles
        simp only
        rw [show (((a :: l).getLast (by simp)).1, ((a :: l).getLast (by simp)).2) =
          (a :: l).getLast (by simp) from rfl]
        exact List.dropLast_append_getLast (by simp)
      have hseqNo2 : s2.seqNo = maxSeq + 1 := by
        rw [← hs2]
        simp only
        exact hmod
      constructor
      · refine ⟨by omega, by omega, ?_, ⟨?_, ?_⟩, ?_⟩
        · intro q hq
          unfold diskSeqs at hq
          rw [hAF2] at hq
          have hle := (le_foldl_max ((a :: l).flatMap (fun p => fileSeqs p.2)) 0).2 q hq
          rw [← hmax] at hle
          omega
        · show WfFile s2.active
          rw [← hs2]
          exact hAFwf _ hlastmem
        · intro p hp
          rw [← hs2] at hp
          simp only at hp
          have hp2 : p ∈ (a :: l) := (List.dropLast_sublist _).subset hp
          rw [← hfs] at hp2
          exact hAFwf p ((mem_sortFiles _ _).mp hp2)
        · show OptsOk s2
          unfold OptsOk at hopts ⊢
          rw [← hs2]
          exact hopts
      · intro B hB hBall
        rw [hseqNo2]
        have : maxSeq < B := by
          rw [hmax]
          refine foldl_max_lt _ 0 B hB ?_
          intro x hx
          exact hBall x ((hmem x).mp hx)
        omega

/-! ## Operation traces (claim C8) -/

/-- The operations of a database's lifetime that the claim quantifies over:
puts, deletes, batch commits and reopens. -/
inductive DbOp where
  | put (key value : List Nat)
  | del (key : List Nat)
  | commit (pending : List DataEntry) (maxBatchNum : Nat) (syncWrites : Bool)
  | reopen
  deriving DecidableEq, Repr

/-- Per-operation side condition: committed batch entries fit the codec's
header bounds (the write batch itself checks only non-emptiness). -/
def OpOk : DbOp → Prop
  | .commit pending _ _ =>
    ∀ e ∈ pending, e.key.length + 5 < 2 ^ 32 ∧ e.value.length < 2 ^ 32
  | _ => True

/-- How many commits a trace performs (each advances the `u32` counter). -/
def countCommits : List DbOp → Nat
  | [] => 0
  | .commit _ _ _ :: t => countCommits t + 1
  | _ :: t => countCommits t

/-- Run one operation; `none` is a panic of the underlying call. -/
def applyOp (s : Db) : DbOp → Option Db
  | .put k v => some (dbPut s k v).1
  | .del k => some (dbDelete s k).1
  | .commit pending maxB sync => (wbCommit s pending ⟨maxB, sync⟩).map Prod.fst
  | .reopen => reopenDb s

def applyOps (s : Db) : List DbOp → Option Db
  | [] => some s
  | op :: t =>
    match applyOp s op with
    | none => none
    | some s2 => applyOps s2 t

/-- C8: (1) open on any directory of cleanly parseable segments sets the
sequence counter to the maximal on-disk sequence number plus one, so it
strictly exceeds every sequence number on disk; (2) this invariant is
preserved across every sequence of puts, deletes, batch commits and reopens,
as long as the `u32` counter has room for the trace's commits. -/
theorem c8_monotonic_sequence_numbers :
    (∀ s s2 : Db, WfFiles s → OptsOk s → (∀ q ∈ diskSeqs s, q + 1 < 2 ^ 32) →
      reopenDb s = some s2 → SeqInv s2) ∧
    (∀ (ops : List DbOp) (s s' : Db), SeqInv s → (∀ op ∈ ops, OpOk op) →
      s.seqNo + countCommits ops < 2 ^ 32 → applyOps s ops = some s' → SeqInv s') := by
  constructor
  · intro s s2 ⟨hwfa, hwfi⟩ hopts hseqs h
    exact (reopen_establishes s s2 hwfa hwfi hopts hseqs h).1
  · intro ops
    induction ops with
    | nil =>
      intro s s' hInv _ _ h
      have := Option.some.inj h
      rw [← this]
      exact hInv
    | cons op t ih =>
      intro s s' hInv hok hbudget h
      rw [applyOps] at h
      cases hstep : applyOp s op with
      | none => rw [hstep] at h; exact absurd h (by simp)
      | some s2 =>
        rw [hstep] at h
        have hokt : ∀ op' ∈ t, OpOk op' := fun op' hop' => hok op' (List.mem_cons_of_mem _ hop')
        cases op with
        | put k v =>
          obtain ⟨hInv2, hseq2⟩ := step_put s k v hInv
          have hs2 : s2 = (dbPut s k v).1 := (Option.some.inj hstep).symm
          subst hs2
          refine ih _ s' hInv2 hokt ?_ h
          rw [hseq2]
          simpa [countCommits] using hbudget
        | del k =>
          obtain ⟨hInv2, hseq2⟩ := step_del s k hInv
          have hs2 : s2 = (dbDelete s k).1 := (Option.some.inj hstep).symm
          subst hs2
          refine ih _ s' hInv2 hokt ?_ h
          rw [hseq2]
          simpa [countCommits] using hbudget
        | commit pending maxB sync =>
          simp only [applyOp, Option.map_eq_some'] at hstep
          obtain ⟨res, hres, hres1⟩ := hstep
          have hb : ∀ e ∈ pending, e.key.length + 5 < 2 ^ 32 ∧ e.value.length < 2 ^ 32 :=
            hok _ (List.mem_cons_self _ _)
          have hcount : countCommits (DbOp.commit pending maxB sync :: t) =
              countCommits t + 1 := rfl
          obtain ⟨hInv2, hseq2⟩ := step_commit s pending ⟨maxB, sync⟩ res hInv hb
            (by rw [hcount] at hbudget; omega) hres
          rw [hres1] at hInv2 hseq2
          refine ih _ s' hInv2 hokt ?_ h
          rw [hcount] at hbudget
          omega
        | reopen =>
          simp only [applyOp] at hstep
          obtain ⟨hpos, hlt, hdisk, ⟨hwfa, hwfi⟩, hopts⟩ := hInv
          obtain ⟨hInv2, hbound⟩ := reopen_establishes s s2 hwfa hwfi hopts
            (fun q hq => by have := hdisk q hq; omega) hstep
          have hle : s2.seqNo ≤ s.seqNo := hbound s.seqNo hpos hdisk
          refine ih _ s' hInv2 hokt ?_ h
          have hc : countCommits (DbOp.reopen :: t) = countCommits t := rfl
          rw [hc] at hbudget
          omega

/-- The concrete trace used by the C8 witness: a put, a one-entry batch
commit, and a reopen. -/
def c8ops : List DbOp :=
  [DbOp.put [1] [2], DbOp.commit [⟨[3], [4], State.active⟩] 2 true, DbOp.reopen]

set_option maxRecDepth 100000 in
theorem c8_monotonic_sequence_numbers_witness :
    SeqInv ((reopenDb db0).getD db0) ∧ SeqInv ((applyOps db0 c8ops).getD db0) :=
  ⟨c8_monotonic_sequence_numbers.1 db0 ((reopenDb db0).getD db0)
      ⟨by show WfFile []; exact WfFile.nil, by simp [db0]⟩
      (by constructor <;> decide) (by decide) (by decide),
    c8_monotonic_sequence_numbers.2 c8ops db0 ((applyOps db0 c8ops).getD db0)
      ⟨by decide, by decide, by decide,
        ⟨by show WfFile []; exact WfFile.nil, by simp [db0]⟩, by constructor <;> decide⟩
      (by intro op hop; fin_cases hop <;> simp only [OpOk] <;> decide)
      (by decide) (by decide)⟩

end Zap
